import Mathlib

/-!
Verification of the conversational preference pipeline of the car-fit chat
backend (preference extraction and merging, RAG result merging, the hidden
metadata block extractor, and the streaming response filter).

JavaScript strings are modelled as lists of characters (`Str`), fallible
operations as `Option`, and the streaming generator as a fold of a step
function over the list of content fragments.  All definitions are translated
from the TypeScript sources; the file and line references are given in the
doc comments.
-/

set_option maxRecDepth 20000

abbrev Str := List Char

/-- JS `String.prototype.includes`: `containsStr s pat` is true when `pat`
occurs as a contiguous substring of `s` (the empty pattern always occurs). -/
def containsStr : Str → Str → Bool
  | [], pat => pat.isPrefixOf []
  | c :: t, pat => pat.isPrefixOf (c :: t) || containsStr t pat

/-- Split at the first occurrence of `pat`: returns the part strictly before
the first occurrence and the part strictly after it, or `none` when `pat`
does not occur.  This models JS `s.split(pat)[0]` / `s.indexOf(pat)` and,
when `pat` occurs at most once, `s.split(pat)[1]`. -/
def splitFirst : Str → Str → Option (Str × Str)
  | [], pat => if pat.isPrefixOf [] then some ([], []) else none
  | c :: t, pat =>
    if pat.isPrefixOf (c :: t) then some ([], (c :: t).drop pat.length)
    else (splitFirst t pat).map (fun p => (c :: p.1, p.2))

theorem containsStr_append_right (s t pat : Str) (h : containsStr s pat = true) :
    containsStr (s ++ t) pat = true := by
  induction s with
  | nil =>
    rw [containsStr] at h
    have hpat : pat = [] := by
      cases pat with
      | nil => rfl
      | cons c cs => simp [List.isPrefixOf] at h
    subst hpat
    cases t with
    | nil => decide
    | cons c cs => simp [containsStr, List.isPrefixOf]
  | cons c cs ih =>
    rw [containsStr] at h
    rw [List.cons_append, containsStr]
    rcases Bool.or_eq_true_iff.mp h with hp | hc
    · have hpre : pat <+: (c :: cs) := List.isPrefixOf_iff_prefix.mp hp
      have hpre2 : pat <+: (c :: (cs ++ t)) := by
        have := hpre.trans (List.prefix_append (c :: cs) t)
        simpa using this
      rw [List.isPrefixOf_iff_prefix.mpr hpre2]
      rfl
    · rw [ih hc, Bool.or_true]

/-!
## Preference data model

`src/src/modules/ai/ai.types.ts` (`UserPreferences`): a record of ten optional
slots; string-valued slots are `Option Str`, numeric slots (`yearFrom`,
`yearTo`, `budget`) are `Option Int`.  A missing key, `undefined` and `null`
are all modelled as `none`.
-/

structure UserPreferences where
  marka : Option Str := none
  model : Option Str := none
  country : Option Str := none
  color : Option Str := none
  power : Option Str := none
  kpp : Option Str := none
  yearFrom : Option Int := none
  yearTo : Option Int := none
  bodyType : Option Str := none
  budget : Option Int := none
  deriving DecidableEq, Repr

def emptyPreferences : UserPreferences := {}

/-- The named preference slots (the recognized keys of the data model). -/
inductive Slot where
  | marka | model | country | color | power | kpp
  | yearFrom | yearTo | bodyType | budget
  deriving DecidableEq, Repr

/-- A slot value: string-valued or number-valued. -/
inductive SlotVal where
  | s (v : Str)
  | n (v : Int)
  deriving DecidableEq, Repr

def Slot.all : List Slot :=
  [.marka, .model, .country, .color, .power, .kpp, .yearFrom, .yearTo, .bodyType, .budget]

/-- Read one slot of a preference record (JS property read, `undefined` as
`none`). -/
def getSlot (p : UserPreferences) : Slot → Option SlotVal
  | .marka => p.marka.map SlotVal.s
  | .model => p.model.map SlotVal.s
  | .country => p.country.map SlotVal.s
  | .color => p.color.map SlotVal.s
  | .power => p.power.map SlotVal.s
  | .kpp => p.kpp.map SlotVal.s
  | .yearFrom => p.yearFrom.map SlotVal.n
  | .yearTo => p.yearTo.map SlotVal.n
  | .bodyType => p.bodyType.map SlotVal.s
  | .budget => p.budget.map SlotVal.n

/-- The guard of the merge loop in `mergePreferences`
(`newValue !== undefined && newValue !== null && newValue !== ''`) applied to
a present value: empty strings are rejected, every number passes (in JS even
`0 !== ''` holds under strict inequality). -/
def keepVal : SlotVal → Bool
  | .s v => v ≠ []
  | .n _ => true

/-!
## mergePreferences

`src/src/modules/ai/message-parser.ts` lines 690-704.  The source iterates
over `Object.keys(newPrefs)` and copies `newPrefs[key]` onto a shallow copy
of `oldPrefs` whenever the value is not `undefined`/`null`/`''`.  Since keys
absent from `newPrefs` would fail the `!== undefined` test anyway, iterating
over all ten slots is equivalent, and the loop is modelled field by field:
a string slot is overwritten only by a present non-empty value, a numeric
slot by any present value.
-/

def mergeStrSlot (o nv : Option Str) : Option Str :=
  match nv with
  | none => o
  | some v => if v = [] then o else some v

def mergeNumSlot (o nv : Option Int) : Option Int :=
  match nv with
  | none => o
  | some v => some v

def mergePreferences (oldPrefs newPrefs : UserPreferences) : UserPreferences where
  marka := mergeStrSlot oldPrefs.marka newPrefs.marka
  model := mergeStrSlot oldPrefs.model newPrefs.model
  country := mergeStrSlot oldPrefs.country newPrefs.country
  color := mergeStrSlot oldPrefs.color newPrefs.color
  power := mergeStrSlot oldPrefs.power newPrefs.power
  kpp := mergeStrSlot oldPrefs.kpp newPrefs.kpp
  yearFrom := mergeNumSlot oldPrefs.yearFrom newPrefs.yearFrom
  yearTo := mergeNumSlot oldPrefs.yearTo newPrefs.yearTo
  bodyType := mergeStrSlot oldPrefs.bodyType newPrefs.bodyType
  budget := mergeNumSlot oldPrefs.budget newPrefs.budget

theorem mergeStrSlot_spec (o nv : Option Str) :
    (∀ v, nv.map SlotVal.s = some v → keepVal v = true →
      (mergeStrSlot o nv).map SlotVal.s = some v) ∧
    (nv.map SlotVal.s = none →
      (mergeStrSlot o nv).map SlotVal.s = o.map SlotVal.s) ∧
    (∀ v, nv.map SlotVal.s = some v → keepVal v = false →
      (mergeStrSlot o nv).map SlotVal.s = o.map SlotVal.s) ∧
    (nv.map SlotVal.s = none → o.map SlotVal.s = none →
      (mergeStrSlot o nv).map SlotVal.s = none) := by
  cases nv with
  | none => simp [mergeStrSlot]
  | some w =>
    refine ⟨?_, ?_, ?_, ?_⟩
    · intro v hv hkeep
      rw [Option.map_some'] at hv
      injection hv with hv
      subst hv
      simp only [keepVal] at hkeep
      have hw : w ≠ [] := by simpa using hkeep
      simp [mergeStrSlot, hw]
    · intro h; simp at h
    · intro v hv hkeep
      rw [Option.map_some'] at hv
      injection hv with hv
      subst hv
      simp only [keepVal] at hkeep
      have hw : w = [] := by simpa using hkeep
      simp [mergeStrSlot, hw]
    · intro h; simp at h

theorem mergeNumSlot_spec (o nv : Option Int) :
    (∀ v, nv.map SlotVal.n = some v → keepVal v = true →
      (mergeNumSlot o nv).map SlotVal.n = some v) ∧
    (nv.map SlotVal.n = none →
      (mergeNumSlot o nv).map SlotVal.n = o.map SlotVal.n) ∧
    (∀ v, nv.map SlotVal.n = some v → keepVal v = false →
      (mergeNumSlot o nv).map SlotVal.n = o.map SlotVal.n) ∧
    (nv.map SlotVal.n = none → o.map SlotVal.n = none →
      (mergeNumSlot o nv).map SlotVal.n = none) := by
  cases nv with
  | none => simp [mergeNumSlot]
  | some w =>
    refine ⟨?_, ?_, ?_, ?_⟩
    · intro v hv _
      rw [Option.map_some'] at hv
      injection hv with hv
      subst hv
      simp [mergeNumSlot]
    · intro h; simp at h
    · intro v hv hkeep
      rw [Option.map_some'] at hv
      injection hv with hv
      subst hv
      simp [keepVal] at hkeep
    · intro h; simp at h

/-- C3.  For every pair of preference records and every slot: a present,
non-null, non-empty value in `new` overwrites; an absent or present-but-empty
value in `new` leaves `old`'s value untouched; a slot present in neither
stays absent. -/
theorem mergePreferences_slot_spec (oldPrefs newPrefs : UserPreferences) (k : Slot) :
    (∀ v, getSlot newPrefs k = some v → keepVal v = true →
      getSlot (mergePreferences oldPrefs newPrefs) k = some v) ∧
    (getSlot newPrefs k = none →
      getSlot (mergePreferences oldPrefs newPrefs) k = getSlot oldPrefs k) ∧
    (∀ v, getSlot newPrefs k = some v → keepVal v = false →
      getSlot (mergePreferences oldPrefs newPrefs) k = getSlot oldPrefs k) ∧
    (getSlot newPrefs k = none → getSlot oldPrefs k = none →
      getSlot (mergePreferences oldPrefs newPrefs) k = none) := by
  cases k <;>
    first
    | simpa only [getSlot, mergePreferences] using
        mergeStrSlot_spec oldPrefs.marka newPrefs.marka
    | simpa only [getSlot, mergePreferences] using
        mergeStrSlot_spec oldPrefs.model newPrefs.model
    | simpa only [getSlot, mergePreferences] using
        mergeStrSlot_spec oldPrefs.country newPrefs.country
    | simpa only [getSlot, mergePreferences] using
        mergeStrSlot_spec oldPrefs.color newPrefs.color
    | simpa only [getSlot, mergePreferences] using
        mergeStrSlot_spec oldPrefs.power newPrefs.power
    | simpa only [getSlot, mergePreferences] using
        mergeStrSlot_spec oldPrefs.kpp newPrefs.kpp
    | simpa only [getSlot, mergePreferences] using
        mergeNumSlot_spec oldPrefs.yearFrom newPrefs.yearFrom
    | simpa only [getSlot, mergePreferences] using
        mergeNumSlot_spec oldPrefs.yearTo newPrefs.yearTo
    | simpa only [getSlot, mergePreferences] using
        mergeStrSlot_spec oldPrefs.bodyType newPrefs.bodyType
    | simpa only [getSlot, mergePreferences] using
        mergeNumSlot_spec oldPrefs.budget newPrefs.budget

/-- Scenario 3 of the spec, used to instantiate `mergePreferences_slot_spec`:
merging Toyota/AT with BMW/2020 keeps AT and takes BMW and 2020. -/
theorem mergePreferences_slot_spec_witness :
    getSlot (mergePreferences
        { emptyPreferences with marka := some ("Toyota".toList), kpp := some ("AT".toList) }
        { emptyPreferences with marka := some ("BMW".toList), yearFrom := some 2020 })
      Slot.marka = some (SlotVal.s ("BMW".toList)) := by
  exact (mergePreferences_slot_spec
      { emptyPreferences with marka := some ("Toyota".toList), kpp := some ("AT".toList) }
      { emptyPreferences with marka := some ("BMW".toList), yearFrom := some 2020 }
      Slot.marka).1 (SlotVal.s ("BMW".toList)) (by decide) (by decide)



/-!
## Frame behaviour of mergePreferences (C10)

The source builds `const merged = \x7b ...oldPrefs \x7d` (a shallow copy into a
freshly allocated object) and the loop assigns only into `merged`.  To state
that the two argument objects are not mutated, the relevant fragment of the
JS heap is made explicit: a store maps object identifiers to preference
records, every write of the loop goes through `storeSet` at the identifier of
the freshly allocated object, and the program returns the final store.
-/

def Store := Nat → UserPreferences

def storeSet (σ : Store) (i : Nat) (p : UserPreferences) : Store :=
  fun j => if j = i then p else σ j

/-- Write one slot of a record (`merged[key] = newValue`).  The value written
always comes from the same slot of `newPrefs`, so the kinds always agree; a
mismatched kind leaves the record unchanged. -/
def setSlot (p : UserPreferences) : Slot → SlotVal → UserPreferences
  | .marka, .s v => { p with marka := some v }
  | .model, .s v => { p with model := some v }
  | .country, .s v => { p with country := some v }
  | .color, .s v => { p with color := some v }
  | .power, .s v => { p with power := some v }
  | .kpp, .s v => { p with kpp := some v }
  | .yearFrom, .n v => { p with yearFrom := some v }
  | .yearTo, .n v => { p with yearTo := some v }
  | .bodyType, .s v => { p with bodyType := some v }
  | .budget, .n v => { p with budget := some v }
  | _, _ => p

/-- One iteration of the merge loop on the heap: read `newPrefs[key]` from the
object at `newId`, and if it passes the `undefined`/`null`/`''` guard, assign
it into the object at `mergedId`. -/
def mergeLoopStep (newId mergedId : Nat) (σ : Store) (k : Slot) : Store :=
  match getSlot (σ newId) k with
  | none => σ
  | some v => if keepVal v then storeSet σ mergedId (setSlot (σ mergedId) k v) else σ

/-- The function `mergePreferences` as a heap program: allocate `mergedId`, initialise it
with a shallow copy of the object at `oldId`, then run the loop over the
slots (keys absent from `newPrefs` fail the `!== undefined` guard, so
iterating all ten slots is the same as iterating `Object.keys(newPrefs)`).
Returns the final store; the function's return value is the object at
`mergedId`. -/
def mergeProgram (σ : Store) (oldId newId mergedId : Nat) : Store :=
  Slot.all.foldl (mergeLoopStep newId mergedId) (storeSet σ mergedId (σ oldId))

theorem mergeLoopStep_frame (newId mergedId j : Nat) (σ : Store) (k : Slot)
    (hj : j ≠ mergedId) : mergeLoopStep newId mergedId σ k j = σ j := by
  unfold mergeLoopStep
  cases getSlot (σ newId) k with
  | none => rfl
  | some v =>
    by_cases hk : keepVal v = true
    · simp [hk, storeSet, hj]
    · simp [hk]

theorem mergeLoop_foldl_frame (newId mergedId j : Nat) (hj : j ≠ mergedId)
    (ks : List Slot) (σ : Store) :
    ks.foldl (mergeLoopStep newId mergedId) σ j = σ j := by
  induction ks generalizing σ with
  | nil => rfl
  | cons k ks ih =>
    rw [List.foldl_cons, ih]
    exact mergeLoopStep_frame newId mergedId j σ k hj

/-- C10.  `mergePreferences` only writes into the freshly allocated result
object: after the call the objects passed as `old` and `new` hold exactly the
records they held before (`mergedId ≠ oldId` and `mergedId ≠ newId` express
that JS object allocation returns a fresh reference). -/
theorem mergeProgram_frame (σ : Store) (oldId newId mergedId : Nat)
    (hold : oldId ≠ mergedId) (hnew : newId ≠ mergedId) :
    mergeProgram σ oldId newId mergedId oldId = σ oldId ∧
    mergeProgram σ oldId newId mergedId newId = σ newId := by
  unfold mergeProgram
  constructor
  · rw [mergeLoop_foldl_frame newId mergedId oldId hold]
    simp [storeSet, hold]
  · rw [mergeLoop_foldl_frame newId mergedId newId hnew]
    simp [storeSet, hnew]

/-- Witness for C10 at a concrete store: object 0 holds Toyota/AT, object 1
holds BMW, the result is allocated at object 2; objects 0 and 1 are
unchanged. -/
theorem mergeProgram_frame_witness :
    mergeProgram
        (fun j =>
          if j = 0 then { emptyPreferences with marka := some ("Toyota".toList) }
          else if j = 1 then { emptyPreferences with marka := some ("BMW".toList) }
          else emptyPreferences)
        0 1 2 0
      = { emptyPreferences with marka := some ("Toyota".toList) } := by
  have h := (mergeProgram_frame
      (fun j =>
        if j = 0 then { emptyPreferences with marka := some ("Toyota".toList) }
        else if j = 1 then { emptyPreferences with marka := some ("BMW".toList) }
        else emptyPreferences)
      0 1 2 (by decide) (by decide)).1
  rw [h]
  rfl

/-!
## generateWordForms

`src/src/modules/ai/message-parser.ts` lines 247-291.  The source builds a JS
`Set` seeded with the word and adds suffix forms depending on the final
letter; `Set.add` keeps insertion order and drops duplicates, modelled by
`addForm`.  The branch tests are the regexes `/^[a-z0-9]+$/i` (pure Latin or
digit token) and `/[а-яё]/` (contains a lower-case Cyrillic letter), and
membership of the last character in the vowel string `аеёиоуыэюя`.
-/

def CYRILLIC_VOWELS : Str := "аеёиоуыэюя".toList

/-- One character of `/^[a-z0-9]+$/i`, by code point:
97-122 is a-z, 65-90 is A-Z, 48-57 is 0-9. -/
def isLatinAlnumChar (c : Char) : Bool :=
  (97 ≤ c.toNat && c.toNat ≤ 122) || (65 ≤ c.toNat && c.toNat ≤ 90) ||
    (48 ≤ c.toNat && c.toNat ≤ 57)

/-- The test `/^[a-z0-9]+$/i.test(word)` — at least one character, all Latin/digit. -/
def isLatinAlnum (w : Str) : Bool :=
  !w.isEmpty && w.all isLatinAlnumChar

/-- One character of `/[а-яё]/`, by code point: 1072-1103 is а-я, 1105 is ё. -/
def isCyrChar (c : Char) : Bool :=
  (1072 ≤ c.toNat && c.toNat ≤ 1103) || c.toNat = 1105

/-- The test `/[а-яё]/.test(word)`. -/
def containsCyrChar (w : Str) : Bool := w.any isCyrChar

/-- JS `Set.prototype.add` on an insertion-ordered set of strings. -/
def addForm (acc : List Str) (f : Str) : List Str :=
  if f ∈ acc then acc else acc ++ [f]

def addForms (acc : List Str) (fs : List Str) : List Str :=
  fs.foldl addForm acc

def generateWordForms (word : Str) : List Str :=
  let forms : List Str := [word]
  if isLatinAlnum word then [word]
  else
    match word.getLast? with
    | none => forms
    | some lastChar =>
      if lastChar = 'а' then
        -- feminine: stem + у / е / ой / ы
        let stem := word.dropLast
        addForms forms [stem ++ ("у".toList), stem ++ ("е".toList),
          stem ++ ("ой".toList), stem ++ ("ы".toList)]
      else if lastChar = 'я' then
        -- feminine soft: stem + ю / е / ей / и
        let stem := word.dropLast
        addForms forms [stem ++ ("ю".toList), stem ++ ("е".toList),
          stem ++ ("ей".toList), stem ++ ("и".toList)]
      else if CYRILLIC_VOWELS.contains lastChar then
        -- other vowels: indeclinable
        forms
      else if containsCyrChar word then
        if word.length ≤ 3 then
          -- short abbreviations: indeclinable
          forms
        else
          -- masculine: word + а / у / е / ом / ы / ов
          addForms forms [word ++ ("а".toList), word ++ ("у".toList), word ++ ("е".toList),
            word ++ ("ом".toList), word ++ ("ы".toList), word ++ ("ов".toList)]
      else forms

theorem addForm_not_mem (acc : List Str) (f : Str) (h : f ∉ acc) :
    addForm acc f = acc ++ [f] := by
  simp [addForm, h]

theorem append_ne_append (s : Str) (u v : Str) (h : u ≠ v) : s ++ u ≠ s ++ v :=
  fun he => h (List.append_cancel_left he)

theorem self_ne_append (s u : Str) (h : u ≠ []) : s ≠ s ++ u := by
  intro he
  have : s ++ [] = s ++ u := by simpa using he
  exact h (List.append_cancel_left this).symm

theorem eq_append_of_getLast_eq (w : Str) (c : Char) (h : w.getLast? = some c) :
    ∃ s, w = s ++ [c] := by
  induction w with
  | nil => simp at h
  | cons x t ih =>
    cases t with
    | nil =>
      simp [List.getLast?] at h
      exact ⟨[], by simp [h]⟩
    | cons y u =>
      rw [List.getLast?_cons_cons] at h
      obtain ⟨s, hs⟩ := ih h
      exact ⟨x :: s, by simp [hs]⟩

theorem latinAlnumChar_eq_false_of_cyr (c : Char) (h : isCyrChar c = true) :
    isLatinAlnumChar c = false := by
  simp only [isCyrChar, Bool.or_eq_true, Bool.and_eq_true, decide_eq_true_eq] at h
  simp only [isLatinAlnumChar, Bool.or_eq_false_iff, Bool.and_eq_false_iff,
    decide_eq_false_iff_not, not_le]
  omega

theorem isLatinAlnum_eq_false_of_all_cyr (w : Str) (h : w.all isCyrChar = true)
    (hne : w ≠ []) : isLatinAlnum w = false := by
  cases w with
  | nil => exact absurd rfl hne
  | cons c t =>
    rw [List.all_cons, Bool.and_eq_true] at h
    have hc := latinAlnumChar_eq_false_of_cyr c h.1
    simp [isLatinAlnum, List.all_cons, hc]

theorem containsCyrChar_of_all_cyr (w : Str) (h : w.all isCyrChar = true)
    (hne : w ≠ []) : containsCyrChar w = true := by
  cases w with
  | nil => exact absurd rfl hne
  | cons c t =>
    rw [List.all_cons, Bool.and_eq_true] at h
    simp [containsCyrChar, List.any_cons, h.1]

theorem addForms_all_new (fs : List Str) (acc : List Str)
    (hmem : ∀ f ∈ fs, f ∉ acc) (hnd : fs.Nodup) : addForms acc fs = acc ++ fs := by
  induction fs generalizing acc with
  | nil => simp [addForms]
  | cons f fs ih =>
    have h1 : addForm acc f = acc ++ [f] :=
      addForm_not_mem acc f (hmem f (List.mem_cons_self f fs))
    have h2 : ∀ g ∈ fs, g ∉ acc ++ [f] := by
      intro g hg
      rw [List.mem_append, List.mem_singleton]
      rintro (hga | rfl)
      · exact hmem g (List.mem_cons_of_mem f hg) hga
      · exact (List.nodup_cons.mp hnd).1 hg
    calc addForms acc (f :: fs) = addForms (acc ++ [f]) fs := by
          simp [addForms, h1]
      _ = (acc ++ [f]) ++ fs := ih (acc ++ [f]) h2 (List.nodup_cons.mp hnd).2
      _ = acc ++ (f :: fs) := by simp

theorem ne_nil_of_getLast_some (w : Str) (c : Char) (h : w.getLast? = some c) :
    w ≠ [] := by
  intro he
  subst he
  simp at h


theorem not_self_eq_append (w u : Str) (h : u ≠ []) : ¬(w ++ u = w) :=
  fun he => self_ne_append w u h he.symm

/-- C6.  `generateWordForms` returns: exactly the root for pure Latin input;
the root plus exactly the four hard-feminine case endings on the stem for a
Cyrillic root ending in `а`; the root plus exactly the four soft variants for
a Cyrillic root ending in `я`; exactly the root for a Cyrillic root ending in
another vowel, or ending in a non-vowel with length at most 3; and the root
plus exactly the six masculine declension forms for a Cyrillic root longer
than 3 letters ending in a non-vowel. -/
theorem generateWordForms_spec (w : Str) :
    (isLatinAlnum w = true → generateWordForms w = [w]) ∧
    (w.all isCyrChar = true → w.getLast? = some 'а' →
      generateWordForms w =
        [w, w.dropLast ++ ['у'], w.dropLast ++ ['е'],
         w.dropLast ++ ['о', 'й'], w.dropLast ++ ['ы']]) ∧
    (w.all isCyrChar = true → w.getLast? = some 'я' →
      generateWordForms w =
        [w, w.dropLast ++ ['ю'], w.dropLast ++ ['е'],
         w.dropLast ++ ['е', 'й'], w.dropLast ++ ['и']]) ∧
    (∀ c, w.all isCyrChar = true → w.getLast? = some c → c ≠ 'а' → c ≠ 'я' →
      CYRILLIC_VOWELS.contains c = true → generateWordForms w = [w]) ∧
    (∀ c, w.all isCyrChar = true → w.getLast? = some c →
      CYRILLIC_VOWELS.contains c = false → w.length ≤ 3 →
      generateWordForms w = [w]) ∧
    (∀ c, w.all isCyrChar = true → w.getLast? = some c →
      CYRILLIC_VOWELS.contains c = false → 3 < w.length →
      generateWordForms w =
        [w, w ++ ['а'], w ++ ['у'], w ++ ['е'],
         w ++ ['о', 'м'], w ++ ['ы'], w ++ ['о', 'в']]) := by
  refine ⟨?_, ?_, ?_, ?_, ?_, ?_⟩
  · intro h
    simp [generateWordForms, h]
  · intro hcyr hlast
    have hne := ne_nil_of_getLast_some w 'а' hlast
    have hlat := isLatinAlnum_eq_false_of_all_cyr w hcyr hne
    obtain ⟨s, rfl⟩ := eq_append_of_getLast_eq w 'а' hlast
    have hmem : ∀ f ∈ [s ++ ['у'], s ++ ['е'], s ++ ['о', 'й'], s ++ ['ы']],
        f ∉ [s ++ ['а']] := by
      intro f hf
      simp only [List.mem_cons, List.not_mem_nil, or_false] at hf
      simp only [List.mem_singleton]
      rcases hf with rfl | rfl | rfl | rfl <;> (apply append_ne_append; decide)
    have hnd : [s ++ ['у'], s ++ ['е'], s ++ ['о', 'й'], s ++ ['ы']].Nodup := by
      simp only [List.nodup_cons, List.mem_cons, List.not_mem_nil, or_false,
        not_or, List.nodup_nil, and_true, List.mem_singleton, not_false_eq_true]
      repeat' apply And.intro
      all_goals (apply append_ne_append; decide)
    have hadd := addForms_all_new _ _ hmem hnd
    simp [generateWordForms, hlat, hadd, List.getLast?_concat, List.dropLast_concat]
  · intro hcyr hlast
    have hne := ne_nil_of_getLast_some w 'я' hlast
    have hlat := isLatinAlnum_eq_false_of_all_cyr w hcyr hne
    obtain ⟨s, rfl⟩ := eq_append_of_getLast_eq w 'я' hlast
    have hmem : ∀ f ∈ [s ++ ['ю'], s ++ ['е'], s ++ ['е', 'й'], s ++ ['и']],
        f ∉ [s ++ ['я']] := by
      intro f hf
      simp only [List.mem_cons, List.not_mem_nil, or_false] at hf
      simp only [List.mem_singleton]
      rcases hf with rfl | rfl | rfl | rfl <;> (apply append_ne_append; decide)
    have hnd : [s ++ ['ю'], s ++ ['е'], s ++ ['е', 'й'], s ++ ['и']].Nodup := by
      simp only [List.nodup_cons, List.mem_cons, List.not_mem_nil, or_false,
        not_or, List.nodup_nil, and_true, List.mem_singleton, not_false_eq_true]
      repeat' apply And.intro
      all_goals (apply append_ne_append; decide)
    have hadd := addForms_all_new _ _ hmem hnd
    simp [generateWordForms, hlat, hadd, List.getLast?_concat, List.dropLast_concat]
  · intro c hcyr hlast hca hcy hvow
    have hne := ne_nil_of_getLast_some w c hlast
    have hlat := isLatinAlnum_eq_false_of_all_cyr w hcyr hne
    have hvm : c ∈ CYRILLIC_VOWELS := by simpa using hvow
    simp [generateWordForms, hlat, hlast, hca, hcy, hvm]
  · intro c hcyr hlast hvow hlen
    have hne := ne_nil_of_getLast_some w c hlast
    have hlat := isLatinAlnum_eq_false_of_all_cyr w hcyr hne
    have hcc := containsCyrChar_of_all_cyr w hcyr hne
    have hca : c ≠ 'а' := by rintro rfl; exact absurd hvow (by decide)
    have hcy : c ≠ 'я' := by rintro rfl; exact absurd hvow (by decide)
    have hvm : c ∉ CYRILLIC_VOWELS := by simpa using hvow
    simp [generateWordForms, hlat, hlast, hca, hcy, hvm, hcc, hlen]
  · intro c hcyr hlast hvow hlen
    have hne := ne_nil_of_getLast_some w c hlast
    have hlat := isLatinAlnum_eq_false_of_all_cyr w hcyr hne
    have hcc := containsCyrChar_of_all_cyr w hcyr hne
    have hca : c ≠ 'а' := by rintro rfl; exact absurd hvow (by decide)
    have hcy : c ≠ 'я' := by rintro rfl; exact absurd hvow (by decide)
    have hlen2 : ¬ (w.length ≤ 3) := by omega
    have hmem : ∀ f ∈ [w ++ ['а'], w ++ ['у'], w ++ ['е'],
        w ++ ['о', 'м'], w ++ ['ы'], w ++ ['о', 'в']], f ∉ [w] := by
      intro f hf
      simp only [List.mem_cons, List.not_mem_nil, or_false] at hf
      simp only [List.mem_singleton]
      rcases hf with rfl | rfl | rfl | rfl | rfl | rfl <;>
        (apply not_self_eq_append; decide)
    have hnd : [w ++ ['а'], w ++ ['у'], w ++ ['е'],
        w ++ ['о', 'м'], w ++ ['ы'], w ++ ['о', 'в']].Nodup := by
      simp only [List.nodup_cons, List.mem_cons, List.not_mem_nil, or_false,
        not_or, List.nodup_nil, and_true, List.mem_singleton, not_false_eq_true]
      repeat' apply And.intro
      all_goals (apply append_ne_append; decide)
    have hadd := addForms_all_new _ _ hmem hnd
    have hvm : c ∉ CYRILLIC_VOWELS := by simpa using hvow
    simp [generateWordForms, hlat, hlast, hca, hcy, hvm, hcc, hlen2, hadd]

/-- Witness for C6: the hard-feminine case at the root used in the source
comments (тойота). -/
theorem generateWordForms_spec_witness :
    generateWordForms ("тойота".toList) =
      [("тойота".toList), ("тойоту".toList), ("тойоте".toList),
       ("тойотой".toList), ("тойоты".toList)] := by
  have h := (generateWordForms_spec ("тойота".toList)).2.1 (by decide) (by decide)
  rw [h]
  decide

/-!
## Year detection

`src/src/modules/ai/message-parser.ts` lines 549-568 (identical code also
appears in the AI service's parser):

- `message.match(/\b(19[7-9]\d|20[0-3]\d)\b/g)` — a global scan for 4-digit
  tokens delimited by JS word boundaries (word characters without the `u`
  flag are ASCII letters, digits and underscore); after a match the scan
  resumes after the matched digits;
- two or more matches: the sorted list's first and last become
  `yearFrom`/`yearTo`;
- exactly one match: the slot is decided by the text before the first
  occurrence (`indexOf`) of the year's digit string, tested against
  `/(?:от|с|после|новее|начиная)\s*$/i` and `/(?:до|раньше|старше)\s*$/i`.
-/

/-- JS regex word character (no `u` flag): `[A-Za-z0-9_]`
(65-90, 97-122, 48-57, 95). -/
def isWordChar (c : Char) : Bool :=
  (65 ≤ c.toNat && c.toNat ≤ 90) || (97 ≤ c.toNat && c.toNat ≤ 122) ||
    (48 ≤ c.toNat && c.toNat ≤ 57) || c.toNat = 95

/-- ASCII digit (48-57). -/
def isDigitChar (c : Char) : Bool := 48 ≤ c.toNat && c.toNat ≤ 57

/-- The alternation `19[7-9]\d|20[0-3]\d` on four characters
(49 is `1`, 57 is `9`, 55 is `7`, 50 is `2`, 48 is `0`, 51 is `3`). -/
def isYearPat (d1 d2 d3 d4 : Char) : Bool :=
  ((d1.toNat = 49 && d2.toNat = 57 && 55 ≤ d3.toNat && d3.toNat ≤ 57) ||
    (d1.toNat = 50 && d2.toNat = 48 && 48 ≤ d3.toNat && d3.toNat ≤ 51)) &&
    isDigitChar d4

/-- JS `Number()` of the four matched digit characters. -/
def yearVal (d1 d2 d3 d4 : Char) : Nat :=
  (d1.toNat - 48) * 1000 + (d2.toNat - 48) * 100 + (d3.toNat - 48) * 10 + (d4.toNat - 48)

/-- The boundary `\b` before the match: start of input or a non-word character. -/
def boundaryBefore : Option Char → Bool
  | none => true
  | some c => !isWordChar c

/-- The boundary `\b` after the match: end of input or a non-word character. -/
def boundaryAfter : Str → Bool
  | [] => true
  | c :: _ => !isWordChar c

/-- Try to match `\b(19[7-9]\d|20[0-3]\d)\b` at the current position, given
the previous character; on success returns the year value, the last matched
character and the rest of the input after the match. -/
def tryYearAt (prev : Option Char) : Str → Option (Nat × Char × Str)
  | d1 :: d2 :: d3 :: d4 :: rest =>
    if boundaryBefore prev && isYearPat d1 d2 d3 d4 && boundaryAfter rest then
      some (yearVal d1 d2 d3 d4, d4, rest)
    else none
  | _ => none

/-- The global regex scan: try a match at every position from left to right,
resuming after each match (`lastIndex` semantics of a `g` regex).  The fuel
argument only justifies termination; it starts at the input length and every
step consumes at least one character. -/
def scanYearsAux : Nat → Option Char → Str → List Nat
  | 0, _, _ => []
  | _ + 1, _, [] => []
  | fuel + 1, prev, c :: rest =>
    match tryYearAt prev (c :: rest) with
    | some (y, d4, after) => y :: scanYearsAux fuel (some d4) after
    | none => scanYearsAux fuel (some c) rest

/-- All matches of `/\b(19[7-9]\d|20[0-3]\d)\b/g`, as numbers. -/
def matchedYears (msg : Str) : List Nat :=
  scanYearsAux msg.length none msg

/-- Decimal digit character for 0-9. -/
def digitChar (n : Nat) : Char := Char.ofNat (48 + n)

def natToStrAux : Nat → Nat → Str
  | 0, _ => []
  | fuel + 1, n =>
    if n < 10 then [digitChar n]
    else natToStrAux fuel (n / 10) ++ [digitChar (n % 10)]

/-- JS `String(n)` for a natural number. -/
def natToStr (n : Nat) : Str := natToStrAux (n + 1) n

/-- The JS whitespace class `\s` (common members: tab, LF, VT, FF, CR,
space, NBSP). -/
def isWsChar (c : Char) : Bool :=
  c.toNat = 9 || c.toNat = 10 || c.toNat = 11 || c.toNat = 12 || c.toNat = 13 ||
    c.toNat = 32 || c.toNat = 160

/-- Lower-casing used for the `/i` flag on the cue regexes: ASCII A-Z and
Cyrillic А-Я (1040-1071) shift by 32, Ё (1025) maps to ё (1105). -/
def lowerChar (c : Char) : Char :=
  if 65 ≤ c.toNat && c.toNat ≤ 90 then Char.ofNat (c.toNat + 32)
  else if 1040 ≤ c.toNat && c.toNat ≤ 1071 then Char.ofNat (c.toNat + 32)
  else if c.toNat = 1025 then Char.ofNat 1105
  else c

def dropTrailingWs (s : Str) : Str :=
  (s.reverse.dropWhile isWsChar).reverse

/-- The test `/(?:cue1|cue2|...)\s*$/i.test(s)`: after dropping trailing whitespace
and lower-casing, the string ends with one of the cue literals (the regex
has no word-boundary requirement before the cue). -/
def endsWithAnyCue (cues : List Str) (s : Str) : Bool :=
  cues.any (fun cue => cue.isSuffixOf (dropTrailingWs (s.map lowerChar)))

def fromCues : List Str :=
  ["от".toList, "с".toList, "после".toList, "новее".toList, "начиная".toList]

def toCues : List Str :=
  ["до".toList, "раньше".toList, "старше".toList]

/-- The year-detection step of `parseMessageForPreferences` (the only writer
of the `yearFrom`/`yearTo` slots): returns the pair
(`yearFrom`, `yearTo`).  `Array.prototype.sort` with a numeric comparator is
modelled by insertion sort (any sorting algorithm yields the same list of
numbers). -/
def yearDetection (msg : Str) : Option Int × Option Int :=
  match List.insertionSort (fun a b => a ≤ b) (matchedYears msg) with
  | [] => (none, none)
  | [y] =>
    -- exactly one year found: `message.substring(0, message.indexOf(String(year)))`
    let beforeYear :=
      match splitFirst msg (natToStr y) with
      | some p => p.1
      | none => []
    if endsWithAnyCue fromCues beforeYear then (some (y : Int), none)
    else if endsWithAnyCue toCues beforeYear then (none, some (y : Int))
    else (some (y : Int), none)
  | y :: rest => (some (y : Int), some ((rest.getLastD y : Nat) : Int))


def boundaryBeforeAt (prev : Option Char) (pre : Str) : Bool :=
  match pre.getLast? with
  | none => boundaryBefore prev
  | some c => !isWordChar c

theorem isYearPat_range (d1 d2 d3 d4 : Char) (h : isYearPat d1 d2 d3 d4 = true) :
    1970 ≤ yearVal d1 d2 d3 d4 ∧ yearVal d1 d2 d3 d4 ≤ 2039 := by
  simp only [isYearPat, isDigitChar, Bool.and_eq_true, Bool.or_eq_true,
    decide_eq_true_eq] at h
  simp only [yearVal]
  omega

theorem isYearPat_digits (d1 d2 d3 d4 : Char) (h : isYearPat d1 d2 d3 d4 = true) :
    isWordChar d1 = true ∧ isWordChar d2 = true ∧
    isWordChar d3 = true ∧ isWordChar d4 = true := by
  simp only [isYearPat, isDigitChar, Bool.and_eq_true, Bool.or_eq_true,
    decide_eq_true_eq] at h
  simp only [isWordChar, Bool.and_eq_true, Bool.or_eq_true, decide_eq_true_eq]
  omega

/-- The spec-side reading of the token pattern: four digits whose value is a
year between 1970 and 2039 — equivalent to the regex alternation. -/
theorem isYearPat_iff_digits_range (d1 d2 d3 d4 : Char) :
    isYearPat d1 d2 d3 d4 = true ↔
      (isDigitChar d1 = true ∧ isDigitChar d2 = true ∧
       isDigitChar d3 = true ∧ isDigitChar d4 = true) ∧
      1970 ≤ yearVal d1 d2 d3 d4 ∧ yearVal d1 d2 d3 d4 ≤ 2039 := by
  simp only [isYearPat, isDigitChar, Bool.and_eq_true, Bool.or_eq_true,
    decide_eq_true_eq, yearVal]
  omega

theorem getLastD_mem_of_ne_nil (l : List Nat) (d : Nat) (h : l ≠ []) :
    l.getLastD d ∈ l := by
  induction l generalizing d with
  | nil => exact absurd rfl h
  | cons a t ih =>
    rw [List.getLastD_cons]
    cases t with
    | nil => simp [List.getLastD]
    | cons b t2 => exact List.mem_cons_of_mem a (ih a (by simp))

theorem sorted_mem_le_getLastD (l : List Nat) (d : Nat)
    (h : List.Sorted (fun a b => a ≤ b) l) :
    ∀ z ∈ l, z ≤ l.getLastD d := by
  induction l generalizing d with
  | nil => intro z hz; simp at hz
  | cons a t ih =>
    intro z hz
    rw [List.getLastD_cons]
    rw [List.sorted_cons] at h
    rcases List.mem_cons.mp hz with rfl | hzt
    · cases t with
      | nil => simp [List.getLastD]
      | cons b t2 => exact h.1 _ (getLastD_mem_of_ne_nil (b :: t2) z (by simp))
    · exact ih a h.2 z hzt


/-- C9.  Whenever year detection sets both slots, yearFrom is at most
yearTo: both are only ever set together, as the first and last element of
the sorted list of matched years. -/
theorem yearDetection_yearFrom_le_yearTo (msg : Str) (a b : Int)
    (h : yearDetection msg = (some a, some b)) : a ≤ b := by
  unfold yearDetection at h
  cases hs : List.insertionSort (fun x y => x ≤ y) (matchedYears msg) with
  | nil => rw [hs] at h; simp at h
  | cons y rest =>
    cases rest with
    | nil =>
      rw [hs] at h
      simp only [] at h
      split_ifs at h <;> simp at h
    | cons y2 rest2 =>
      rw [hs] at h
      simp only [Prod.mk.injEq, Option.some.injEq] at h
      obtain ⟨ha, hb⟩ := h
      have hsorted := List.sorted_insertionSort (fun x y => x ≤ y) (matchedYears msg)
      rw [hs, List.sorted_cons] at hsorted
      have hmem := getLastD_mem_of_ne_nil (y2 :: rest2) y (by simp)
      have hle : y ≤ (y2 :: rest2).getLastD y := hsorted.1 _ hmem
      rw [← ha, ← hb]
      exact_mod_cast hle

/-- Witness for C9 at the spec's Scenario 2 message. -/
theorem yearDetection_yearFrom_le_yearTo_witness :
    yearDetection ("от 2018 до 2022".toList) = (some 2018, some 2022) ∧
    (2018 : Int) ≤ 2022 := by
  refine ⟨by decide, ?_⟩
  exact yearDetection_yearFrom_le_yearTo ("от 2018 до 2022".toList) 2018 2022 (by decide)


theorem boundaryBeforeAt_cons (prev : Option Char) (c : Char) (pre : Str) :
    boundaryBeforeAt prev (c :: pre) = boundaryBeforeAt (some c) pre := by
  cases pre with
  | nil => simp [boundaryBeforeAt, boundaryBefore, List.getLast?]
  | cons b t =>
    unfold boundaryBeforeAt
    rw [List.getLast?_cons_cons]
    cases h : (b :: t).getLast? with
    | none => simp at h
    | some x => rfl

theorem tryYearAt_eq_some (prev : Option Char) (s : Str) (y : Nat) (d : Char)
    (after : Str) (h : tryYearAt prev s = some (y, d, after)) :
    ∃ d1 d2 d3 d4, s = d1 :: d2 :: d3 :: d4 :: after ∧
      boundaryBefore prev = true ∧ isYearPat d1 d2 d3 d4 = true ∧
      boundaryAfter after = true ∧ y = yearVal d1 d2 d3 d4 ∧ d = d4 := by
  cases s with
  | nil => simp [tryYearAt] at h
  | cons d1 t1 =>
    cases t1 with
    | nil => simp [tryYearAt] at h
    | cons d2 t2 =>
      cases t2 with
      | nil => simp [tryYearAt] at h
      | cons d3 t3 =>
        cases t3 with
        | nil => simp [tryYearAt] at h
        | cons d4 rest =>
          rw [tryYearAt] at h
          by_cases hc :
              (boundaryBefore prev && isYearPat d1 d2 d3 d4 && boundaryAfter rest) = true
          · rw [if_pos hc] at h
            simp only [Option.some.injEq, Prod.mk.injEq] at h
            obtain ⟨hy, hd, hrest⟩ := h
            simp only [Bool.and_eq_true] at hc
            exact ⟨d1, d2, d3, d4, by rw [hrest], hc.1.1, hc.1.2, by rw [← hrest]; exact hc.2,
              hy.symm, hd.symm⟩
          · rw [if_neg hc] at h
            exact absurd h (by simp)

theorem scanYearsAux_sound (fuel : Nat) :
    ∀ (prev : Option Char) (s : Str), s.length ≤ fuel → ∀ y ∈ scanYearsAux fuel prev s,
    ∃ pre d1 d2 d3 d4 post,
      s = pre ++ [d1, d2, d3, d4] ++ post ∧
      isYearPat d1 d2 d3 d4 = true ∧
      boundaryBeforeAt prev pre = true ∧
      boundaryAfter post = true ∧
      y = yearVal d1 d2 d3 d4 := by
  induction fuel with
  | zero => intro prev s hlen y hy; simp [scanYearsAux] at hy
  | succ f ih =>
    intro prev s hlen y hy
    cases s with
    | nil => simp [scanYearsAux] at hy
    | cons c rest =>
      rw [scanYearsAux] at hy
      cases htry : tryYearAt prev (c :: rest) with
      | none =>
        rw [htry] at hy
        obtain ⟨pre, d1, d2, d3, d4, post, hdec, hpat, hb, ha, hv⟩ :=
          ih (some c) rest (by simp at hlen; omega) y hy
        refine ⟨c :: pre, d1, d2, d3, d4, post, by simp [hdec], hpat, ?_, ha, hv⟩
        rw [boundaryBeforeAt_cons]
        exact hb
      | some r =>
        obtain ⟨y1, e4, after⟩ := r
        rw [htry] at hy
        obtain ⟨e1, e2, e3, e4x, hseq, hbb, hpat1, hba1, hy1, he4⟩ :=
          tryYearAt_eq_some prev _ y1 e4 after htry
        rcases List.mem_cons.mp hy with rfl | hy2
        · exact ⟨[], e1, e2, e3, e4x, after, by simp [hseq], hpat1,
            by simpa [boundaryBeforeAt] using hbb, hba1, hy1⟩
        · have hlen2 : after.length ≤ f := by
            have := congrArg List.length hseq
            simp at this hlen
            omega
          obtain ⟨pre, d1, d2, d3, d4, post, hdec, hpat, hb, ha, hv⟩ :=
            ih (some e4) after hlen2 y hy2
          refine ⟨e1 :: e2 :: e3 :: e4x :: pre, d1, d2, d3, d4, post,
            by rw [hseq, hdec]; simp, hpat, ?_, ha, hv⟩
          rw [boundaryBeforeAt_cons, boundaryBeforeAt_cons, boundaryBeforeAt_cons,
            boundaryBeforeAt_cons]
          rw [he4] at hb
          exact hb


theorem scanYearsAux_complete (fuel : Nat) :
    ∀ (prev : Option Char) (s : Str), s.length ≤ fuel →
    ∀ (pre : Str) (d1 d2 d3 d4 : Char) (post : Str),
      s = pre ++ [d1, d2, d3, d4] ++ post →
      isYearPat d1 d2 d3 d4 = true →
      boundaryBeforeAt prev pre = true →
      boundaryAfter post = true →
      yearVal d1 d2 d3 d4 ∈ scanYearsAux fuel prev s := by
  induction fuel with
  | zero =>
    intro prev s hlen pre d1 d2 d3 d4 post hs hpat hbb hba
    rw [hs] at hlen
    simp at hlen
  | succ f ih =>
    intro prev s hlen pre d1 d2 d3 d4 post hs hpat hbb hba
    subst hs
    cases pre with
    | nil =>
      simp only [List.nil_append, List.cons_append]
      rw [scanYearsAux]
      have htry : tryYearAt prev ([] ++ [d1, d2, d3, d4] ++ post) =
          some (yearVal d1 d2 d3 d4, d4, post) := by
        simp only [List.nil_append, List.cons_append]
        rw [tryYearAt, if_pos]
        rw [Bool.and_eq_true, Bool.and_eq_true]
        refine ⟨⟨?_, hpat⟩, hba⟩
        simpa [boundaryBeforeAt] using hbb
      simp only [List.nil_append, List.cons_append] at htry ⊢
      rw [htry]
      exact List.mem_cons_self _ _
    | cons c pre1 =>
      simp only [List.cons_append]
      rw [scanYearsAux]
      cases htry : tryYearAt prev (c :: (pre1 ++ [d1, d2, d3, d4] ++ post)) with
      | none =>
        apply ih (some c) (pre1 ++ [d1, d2, d3, d4] ++ post) ?_ pre1 d1 d2 d3 d4 post
          rfl hpat ?_ hba
        · simp at hlen ⊢
          omega
        · rw [← boundaryBeforeAt_cons prev c pre1]
          exact hbb
      | some r =>
        obtain ⟨y1, e4, after⟩ := r
        obtain ⟨e1, e2, e3, e4x, hseq, hbb1, hpat1, hba1, hy1, he4⟩ :=
          tryYearAt_eq_some prev _ y1 e4 after htry
        have hdigits := isYearPat_digits e1 e2 e3 e4x hpat1
        cases pre1 with
        | nil =>
          exfalso
          simp only [List.nil_append, List.cons_append, List.cons.injEq] at hseq
          obtain ⟨hce, _⟩ := hseq
          have : isWordChar c = false := by
            simpa [boundaryBeforeAt, List.getLast?] using hbb
          rw [hce] at this
          rw [hdigits.1] at this
          simp at this
        | cons c2 pre2 =>
          cases pre2 with
          | nil =>
            exfalso
            simp only [List.nil_append, List.cons_append, List.cons.injEq] at hseq
            obtain ⟨_, hce, _⟩ := hseq
            have : isWordChar c2 = false := by
              simpa [boundaryBeforeAt, List.getLast?] using hbb
            rw [hce] at this
            rw [hdigits.2.1] at this
            simp at this
          | cons c3 pre3 =>
            cases pre3 with
            | nil =>
              exfalso
              simp only [List.nil_append, List.cons_append, List.cons.injEq] at hseq
              obtain ⟨_, _, hce, _⟩ := hseq
              have : isWordChar c3 = false := by
                simpa [boundaryBeforeAt, List.getLast?] using hbb
              rw [hce] at this
              rw [hdigits.2.2.1] at this
              simp at this
            | cons c4 pre4 =>
              cases pre4 with
              | nil =>
                exfalso
                simp only [List.nil_append, List.cons_append, List.cons.injEq] at hseq
                obtain ⟨_, _, _, hce, _⟩ := hseq
                have : isWordChar c4 = false := by
                  simpa [boundaryBeforeAt, List.getLast?] using hbb
                rw [hce] at this
                rw [hdigits.2.2.2] at this
                simp at this
              | cons c5 pre5 =>
                simp only [List.cons_append, List.cons.injEq] at hseq
                obtain ⟨he1, he2, he3, he4b, hafter⟩ := hseq
                apply List.mem_cons_of_mem
                apply ih (some e4) after ?_ (c5 :: pre5) d1 d2 d3 d4 post
                  (by rw [← hafter]; simp) hpat ?_ hba
                · have := congrArg List.length hafter
                  simp at this hlen
                  omega
                · rw [boundaryBeforeAt_cons]
                  have h5 := hbb
                  rw [boundaryBeforeAt_cons, boundaryBeforeAt_cons, boundaryBeforeAt_cons,
                    boundaryBeforeAt_cons, boundaryBeforeAt_cons] at h5
                  exact h5


theorem matchedYears_mem_iff (msg : Str) (y : Nat) :
    y ∈ matchedYears msg ↔
      ∃ pre d1 d2 d3 d4 post,
        msg = pre ++ [d1, d2, d3, d4] ++ post ∧
        (isDigitChar d1 = true ∧ isDigitChar d2 = true ∧
         isDigitChar d3 = true ∧ isDigitChar d4 = true) ∧
        (1970 ≤ yearVal d1 d2 d3 d4 ∧ yearVal d1 d2 d3 d4 ≤ 2039) ∧
        (∀ c, pre.getLast? = some c → isWordChar c = false) ∧
        (∀ c, post.head? = some c → isWordChar c = false) ∧
        y = yearVal d1 d2 d3 d4 := by
  constructor
  · intro hy
    obtain ⟨pre, d1, d2, d3, d4, post, hdec, hpat, hb, ha, hv⟩ :=
      scanYearsAux_sound msg.length none msg le_rfl y hy
    have hpat2 := (isYearPat_iff_digits_range d1 d2 d3 d4).mp hpat
    refine ⟨pre, d1, d2, d3, d4, post, hdec, hpat2.1, hpat2.2, ?_, ?_, hv⟩
    · intro c hc
      simp only [boundaryBeforeAt, hc] at hb
      simpa using hb
    · intro c hc
      cases post with
      | nil => simp at hc
      | cons p t =>
        simp only [List.head?] at hc
        injection hc with hc
        subst hc
        simpa [boundaryAfter] using ha
  · rintro ⟨pre, d1, d2, d3, d4, post, hdec, hdig, hrange, hb, ha, rfl⟩
    apply scanYearsAux_complete msg.length none msg le_rfl pre d1 d2 d3 d4 post hdec
    · exact (isYearPat_iff_digits_range d1 d2 d3 d4).mpr ⟨hdig, hrange⟩
    · cases hg : pre.getLast? with
      | none => simp [boundaryBeforeAt, hg, boundaryBefore]
      | some c => simp [boundaryBeforeAt, hg, hb c hg]
    · cases post with
      | nil => simp [boundaryAfter]
      | cons p t => simp [boundaryAfter, ha p rfl]

/-- C7 (amended).  Year extraction: (i) the matched years are exactly the
values of 4-digit substrings delimited by JS word boundaries whose value
lies in 1970-2039; (ii) with two or more matches, yearFrom is the smallest
and yearTo the largest matched year; (iii) with exactly one match, the slot
is decided by the text before the first occurrence (`indexOf`) of the year's
digit string — not necessarily the matched token — tested for a trailing
from-cue and then a trailing to-cue (a bare suffix match, no word boundary),
defaulting to yearFrom; (iv) no match sets neither slot. -/
theorem yearDetection_spec (msg : Str) :
    (∀ y, y ∈ matchedYears msg ↔
      ∃ pre d1 d2 d3 d4 post,
        msg = pre ++ [d1, d2, d3, d4] ++ post ∧
        (isDigitChar d1 = true ∧ isDigitChar d2 = true ∧
         isDigitChar d3 = true ∧ isDigitChar d4 = true) ∧
        (1970 ≤ yearVal d1 d2 d3 d4 ∧ yearVal d1 d2 d3 d4 ≤ 2039) ∧
        (∀ c, pre.getLast? = some c → isWordChar c = false) ∧
        (∀ c, post.head? = some c → isWordChar c = false) ∧
        y = yearVal d1 d2 d3 d4) ∧
    (2 ≤ (matchedYears msg).length →
      ∃ (a b : Nat), yearDetection msg = (some (a : Int), some (b : Int)) ∧
        a ∈ matchedYears msg ∧ b ∈ matchedYears msg ∧
        ∀ y ∈ matchedYears msg, a ≤ y ∧ y ≤ b) ∧
    (∀ y, matchedYears msg = [y] →
      yearDetection msg =
        (if endsWithAnyCue fromCues
            (match splitFirst msg (natToStr y) with
              | some p => p.1
              | none => []) then (some (y : Int), none)
         else if endsWithAnyCue toCues
            (match splitFirst msg (natToStr y) with
              | some p => p.1
              | none => []) then (none, some (y : Int))
         else (some (y : Int), none))) ∧
    (matchedYears msg = [] → yearDetection msg = (none, none)) := by
  refine ⟨matchedYears_mem_iff msg, ?_, ?_, ?_⟩
  · intro hlen
    have hperm := List.perm_insertionSort (fun a b => a ≤ b) (matchedYears msg)
    have hsorted := List.sorted_insertionSort (fun a b => a ≤ b) (matchedYears msg)
    cases hcase : List.insertionSort (fun a b => a ≤ b) (matchedYears msg) with
    | nil =>
      rw [hcase] at hperm
      rw [← hperm.length_eq] at hlen
      simp at hlen
    | cons a t =>
      cases t with
      | nil =>
        rw [hcase] at hperm
        rw [← hperm.length_eq] at hlen
        simp at hlen
      | cons y2 rest =>
        rw [hcase] at hperm hsorted
        refine ⟨a, (y2 :: rest).getLastD a, ?_, ?_, ?_, ?_⟩
        · unfold yearDetection
          rw [hcase]
        · exact hperm.mem_iff.mp (List.mem_cons_self a _)
        · exact hperm.mem_iff.mp
            (List.mem_cons_of_mem a (getLastD_mem_of_ne_nil (y2 :: rest) a (by simp)))
        · intro z hz
          have hzl : z ∈ a :: y2 :: rest := hperm.mem_iff.mpr hz
          constructor
          · rcases List.mem_cons.mp hzl with rfl | hzt
            · exact le_refl z
            · exact (List.sorted_cons.mp hsorted).1 z hzt
          · have := sorted_mem_le_getLastD (a :: y2 :: rest) a hsorted z hzl
            rwa [List.getLastD_cons] at this
  · intro y hy
    unfold yearDetection
    rw [hy]
    simp [List.insertionSort, List.orderedInsert]
  · intro hy
    unfold yearDetection
    rw [hy]
    simp [List.insertionSort]

/-- Witness for C7 (amended) at the spec's Scenario 2 message: two matched
years, the smaller becomes yearFrom and the larger yearTo. -/
theorem yearDetection_spec_witness :
    ∃ (a b : Nat),
      yearDetection ("от 2018 до 2022".toList) = (some (a : Int), some (b : Int)) ∧
      a ∈ matchedYears ("от 2018 до 2022".toList) ∧
      b ∈ matchedYears ("от 2018 до 2022".toList) ∧
      ∀ y ∈ matchedYears ("от 2018 до 2022".toList), a ≤ y ∧ y ≤ b :=
  (yearDetection_spec ("от 2018 до 2022".toList)).2.1 (by decide)

/-- C7 counterexample.  In the message "12018 до 2018" the only matched year
token is the final standalone "2018", and the text immediately preceding
that token is "12018 до ", which ends with the to-cue "до"; the claim
therefore requires yearTo = 2018.  But `message.indexOf("2018")` finds the
digits inside the unmatched token "12018" first, the cue test runs on the
text "1" before that earlier occurrence, no cue matches, and the parser
defaults to yearFrom = 2018 with yearTo unset. -/
theorem yearDetection_single_cue_counterexample :
    matchedYears ("12018 до 2018".toList) = [2018] ∧
    endsWithAnyCue toCues ("12018 до ".toList) = true ∧
    endsWithAnyCue fromCues ("12018 до ".toList) = false ∧
    yearDetection ("12018 до 2018".toList) = (some 2018, none) := by
  refine ⟨by decide, by decide, by decide, by decide⟩

/-!
## RAG gating and system message (AI service)

`hasEnoughPreferencesForSearch` (service lines 508-518): search is performed
exactly when the JS-truthiness test `preferences[field]` succeeds for one of
the five key fields.  `processMessageStream` lines 58-140: `searchResults`
starts empty and is filled only when the gate passes; `ragContext` is set
only when results are non-empty; the system message is the rendered context,
a fixed zero-results text, or a fixed no-search text.
-/

/-- JS truthiness of a property read: `undefined`, `''` and `0` are falsy. -/
def jsTruthy : Option SlotVal → Bool
  | none => false
  | some (.s v) => v ≠ []
  | some (.n v) => v ≠ 0

def keyFields : List Slot := [.marka, .model, .kpp, .yearFrom, .bodyType]

def hasEnoughPreferencesForSearch (preferences : UserPreferences) : Bool :=
  keyFields.any (fun field => jsTruthy (getSlot preferences field))

/-- The interface `SearchResultForContext` of `ai.types.ts`. -/
structure SearchResultForContext where
  brand : Str
  model : Str
  variant : Str
  description : Option Str
  yearFrom : Option Int
  yearTo : Option Int
  powerText : Option Str
  kppText : Option Str
  bodyType : Option Str
  complectations : Option (List Str)
  deriving DecidableEq, Repr

/-- JS `String(i)` for an integer. -/
def intToStr (i : Int) : Str :=
  if i < 0 then '-' :: natToStr (-i).toNat else natToStr i.toNat

/-- Defaulting in the style of `o || 'н/д'` (empty string is falsy). -/
def orDefault (o : Option Str) (d : Str) : Str :=
  match o with
  | none => d
  | some s => if s = [] then d else s

/-- JS truthiness of an optional number (`0` is falsy). -/
def jsTruthyNum : Option Int → Bool
  | none => false
  | some n => n ≠ 0

/-- The `years` template of `formatSearchResultsForContext`
(`car.yearFrom && car.yearTo ? from-to : car.yearFrom ? from+ : 'н/д'`,
with JS truthiness on the numbers). -/
def yearsText (yearFrom yearTo : Option Int) : Str :=
  if jsTruthyNum yearFrom && jsTruthyNum yearTo then
    intToStr (yearFrom.getD 0) ++ ("-".toList) ++ intToStr (yearTo.getD 0)
  else if jsTruthyNum yearFrom then intToStr (yearFrom.getD 0) ++ ("+".toList)
  else "н/д".toList

/-- One numbered entry of the rendered context block. -/
def formatCarEntry (index : Nat) (car : SearchResultForContext) : Str :=
  natToStr index ++ ". ".toList ++ car.brand ++ " ".toList ++ car.model ++ "\n".toList ++
  "   Вариант: ".toList ++ car.variant ++ "\n".toList ++
  "   Годы выпуска: ".toList ++ yearsText car.yearFrom car.yearTo ++ "\n".toList ++
  "   Тип кузова: ".toList ++ orDefault car.bodyType ("н/д".toList) ++ "\n".toList ++
  "   Мощность: ".toList ++ orDefault car.powerText ("н/д".toList) ++ "\n".toList ++
  "   КПП: ".toList ++ orDefault car.kppText ("н/д".toList) ++ "\n".toList ++
  (match car.description with
   | some d => if d = [] then [] else "   Описание: ".toList ++ d ++ "\n".toList
   | none => []) ++
  (match car.complectations with
   | some cs =>
     if cs.length > 0 then
       "   Комплектации: ".toList ++ List.intercalate (", ".toList) cs ++ "\n".toList
     else []
   | none => []) ++
  "\n".toList

def formatCarsAux : Nat → List SearchResultForContext → Str
  | _, [] => []
  | i, car :: rest => formatCarEntry i car ++ formatCarsAux (i + 1) rest

def formatSearchResultsForContext (results : List SearchResultForContext) : Str :=
  if results.length = 0 then []
  else
    "РЕЗУЛЬТАТЫ ПОИСКА ПО БАЗЕ ДАННЫХ:\n\n".toList ++
    "Найдено автомобилей: ".toList ++ natToStr results.length ++ "\n\n".toList ++
    formatCarsAux 1 results ++
    "---\n".toList ++
    "ВАЖНО: Используй ТОЛЬКО эти автомобили для рекомендаций. Не придумывай другие модели.\n".toList

/-- The fixed system message for a performed search with zero matches
(service lines 114-124). -/
def zeroResultsMessage : Str :=
  ("РЕЗУЛЬТАТЫ ПОИСКА ПО БАЗЕ ДАННЫХ:\n\n" ++
   "Найдено автомобилей: 0\n\n" ++
   "В нашей базе нет автомобилей по этому запросу.\n" ++
   "ЗАПРЕЩЕНО придумывать или рекомендовать автомобили, которых нет в базе.\n" ++
   "Скажи пользователю, что по его запросу ничего не нашлось.\n" ++
   "Предложи скорректировать параметры поиска (другая марка, другой год, другой тип кузова).\n" ++
   "Задай уточняющие вопросы.").toList

/-- The fixed system message when no search was performed
(service lines 126-139). -/
def noSearchMessage : Str :=
  ("СТАТУС ПОИСКА: поиск по базе не выполнялся (недостаточно конкретных параметров).\n\n" ++
   "ЗАПРЕЩЕНО рекомендовать конкретные автомобили — у тебя нет данных из базы.\n" ++
   "НЕ НАДО извиняться или говорить \"я не могу\" — просто помогай.\n" ++
   "Задай пользователю уточняющие вопросы, чтобы подобрать варианты из базы:\n" ++
   "— Какая марка интересует?\n" ++
   "— Какой тип кузова (седан, кроссовер, хэтчбек)?\n" ++
   "— Какой бюджет?\n" ++
   "— Какой год выпуска?\n" ++
   "Можешь отвечать на общие вопросы об автомобилях, но НЕ рекомендуй конкретные модели.").toList

/-- The value `searchResults` after the gated search: the catalog reply when the gate
passes, empty otherwise (lines 58-81). -/
def ragSearchResults (preferences : UserPreferences)
    (dbResults : List SearchResultForContext) : List SearchResultForContext :=
  if hasEnoughPreferencesForSearch preferences then dbResults else []

/-- The value `ragContext` (lines 59, 83-88): rendered only for non-empty results. -/
def ragContextOf (preferences : UserPreferences)
    (dbResults : List SearchResultForContext) : Str :=
  if (ragSearchResults preferences dbResults).length > 0 then
    formatSearchResultsForContext (ragSearchResults preferences dbResults)
  else []

/-- The RAG system message pushed before the history (lines 105-140):
rendered context if truthy, else the zero-results text if the search ran,
else the no-search text. -/
def ragSystemMessage (preferences : UserPreferences)
    (dbResults : List SearchResultForContext) : Str :=
  if ragContextOf preferences dbResults ≠ [] then ragContextOf preferences dbResults
  else if hasEnoughPreferencesForSearch preferences then zeroResultsMessage
  else noSearchMessage


/-- C4.  Under the data-model invariant that present key slots are valid
(non-empty string / non-zero year), the catalog search is performed iff at
least one of the five key slots (brand, model, transmission, year-from,
body-type) is present; when no search is performed the orchestrator pushes
the fixed no-search message, when a search runs and matches nothing it
pushes the fixed zero-results message, and the two messages differ. -/
theorem hasEnough_ragMessage_spec (p : UserPreferences)
    (dbResults : List SearchResultForContext)
    (hvalid : ∀ k ∈ keyFields, getSlot p k = none ∨ jsTruthy (getSlot p k) = true) :
    (hasEnoughPreferencesForSearch p = true ↔
      ∃ k ∈ keyFields, (getSlot p k).isSome = true) ∧
    (hasEnoughPreferencesForSearch p = false →
      ragSystemMessage p dbResults = noSearchMessage) ∧
    (hasEnoughPreferencesForSearch p = true → dbResults = [] →
      ragSystemMessage p dbResults = zeroResultsMessage) ∧
    noSearchMessage ≠ zeroResultsMessage := by
  refine ⟨?_, ?_, ?_, by decide⟩
  · constructor
    · intro h
      obtain ⟨k, hk, htr⟩ := List.any_eq_true.mp h
      refine ⟨k, hk, ?_⟩
      cases hg : getSlot p k with
      | none => rw [hg] at htr; simp [jsTruthy] at htr
      | some v => simp
    · rintro ⟨k, hk, hsome⟩
      apply List.any_eq_true.mpr
      refine ⟨k, hk, ?_⟩
      rcases hvalid k hk with hnone | htr
      · rw [hnone] at hsome; simp at hsome
      · exact htr
  · intro h
    unfold ragSystemMessage ragContextOf ragSearchResults
    rw [h]
    simp
  · intro h hdb
    unfold ragSystemMessage ragContextOf ragSearchResults
    rw [h, hdb]
    simp

/-- Witness for C4: a preference record with only the brand slot present
passes the gate, and with an empty catalog reply the zero-results message is
selected. -/
theorem hasEnough_ragMessage_spec_witness :
    hasEnoughPreferencesForSearch
        { emptyPreferences with marka := some ("Toyota".toList) } = true ∧
    ragSystemMessage { emptyPreferences with marka := some ("Toyota".toList) } [] =
      zeroResultsMessage ∧
    ragSystemMessage emptyPreferences [] = noSearchMessage := by
  have h := hasEnough_ragMessage_spec
    { emptyPreferences with marka := some ("Toyota".toList) } [] (by decide)
  have h2 := hasEnough_ragMessage_spec emptyPreferences [] (by decide)
  refine ⟨?_, ?_, ?_⟩
  · exact h.1.mpr ⟨Slot.marka, by decide, by decide⟩
  · exact h.2.2.1 (h.1.mpr ⟨Slot.marka, by decide, by decide⟩) rfl
  · exact h2.2.1 (by decide)

/-!
## RAG result merging

`src/src/modules/cars/cars.service.ts` lines 450-476 (`searchCarsForRAG`):
keyword-pass results are added first, then structural-pass results fill the
remaining slots; a JS `Set` of keys `brand|model|variant` drops duplicates;
the structural loop breaks once the limit is reached.  The insertion-ordered
key set is modelled as a list of keys.
-/

/-- The de-duplication key: the template literal `brand|model|variant`. -/
def ragKey (r : SearchResultForContext) : Str :=
  r.brand ++ ("|".toList) ++ r.model ++ ("|".toList) ++ r.variant

/-- First merge loop (lines 455-461): add keyword results, skipping keys
already seen; no limit check. -/
def mergeKeywordLoop :
    List SearchResultForContext → List Str → List SearchResultForContext →
    List Str × List SearchResultForContext
  | [], seen, results => (seen, results)
  | r :: rs, seen, results =>
    if ragKey r ∈ seen then mergeKeywordLoop rs seen results
    else mergeKeywordLoop rs (seen ++ [ragKey r]) (results ++ [r])

/-- Second merge loop (lines 464-471): fill remaining slots from structural
results, breaking once the limit is reached. -/
def mergeFillLoop :
    List SearchResultForContext → List Str → List SearchResultForContext → Nat →
    List SearchResultForContext
  | [], _, results, _ => results
  | r :: rs, seen, results, limit =>
    if limit ≤ results.length then results
    else if ragKey r ∈ seen then mergeFillLoop rs seen results limit
    else mergeFillLoop rs (seen ++ [ragKey r]) (results ++ [r]) limit

/-- The merge step of `searchCarsForRAG`. -/
def mergeRagResults (keywordResults structuralResults : List SearchResultForContext)
    (limit : Nat) : List SearchResultForContext :=
  let p := mergeKeywordLoop keywordResults [] []
  mergeFillLoop structuralResults p.1 p.2 limit

/-- Keep the first occurrence of every key (the specification's notion of
de-duplication, stated independently of the seen-set loop). -/
def dedupByKey : List SearchResultForContext → List SearchResultForContext
  | [] => []
  | r :: rs => r :: (dedupByKey rs).filter (fun x => ragKey x ≠ ragKey r)


theorem dedupByKey_cons (r : SearchResultForContext) (rs : List SearchResultForContext) :
    dedupByKey (r :: rs) = r :: (dedupByKey rs).filter (fun x => ragKey x ≠ ragKey r) :=
  rfl

theorem dedupByKey_filter_key (l : List SearchResultForContext) (k : Str) :
    dedupByKey (l.filter (fun x => ragKey x ≠ k)) =
      (dedupByKey l).filter (fun x => ragKey x ≠ k) := by
  induction l with
  | nil => simp [dedupByKey]
  | cons r rs ih =>
    by_cases hk : ragKey r = k
    · subst hk
      have h1 : (r :: rs).filter (fun x => ragKey x ≠ ragKey r) =
          rs.filter (fun x => ragKey x ≠ ragKey r) := by
        simp [List.filter_cons]
      rw [h1, ih, dedupByKey_cons]
      have h3 : (r :: (dedupByKey rs).filter (fun x => ragKey x ≠ ragKey r)).filter
            (fun x => ragKey x ≠ ragKey r) =
          ((dedupByKey rs).filter (fun x => ragKey x ≠ ragKey r)).filter
            (fun x => ragKey x ≠ ragKey r) := by
        simp [List.filter_cons]
      rw [h3, List.filter_filter]
      apply List.filter_congr
      intro x _
      simp
    · have h1 : (r :: rs).filter (fun x => ragKey x ≠ k) =
          r :: rs.filter (fun x => ragKey x ≠ k) := by
        simp [List.filter_cons, hk]
      rw [h1, dedupByKey_cons, ih, dedupByKey_cons]
      have h3 : (r :: (dedupByKey rs).filter (fun x => ragKey x ≠ ragKey r)).filter
            (fun x => ragKey x ≠ k) =
          r :: ((dedupByKey rs).filter (fun x => ragKey x ≠ ragKey r)).filter
            (fun x => ragKey x ≠ k) := by
        simp [List.filter_cons, hk]
      rw [h3, List.filter_comm]


theorem mergeKeywordLoop_eq (kw : List SearchResultForContext) :
    ∀ (seen : List Str) (results : List SearchResultForContext),
    seen = results.map ragKey →
    mergeKeywordLoop kw seen results =
      (seen ++ (dedupByKey (kw.filter (fun r => ragKey r ∉ seen))).map ragKey,
       results ++ dedupByKey (kw.filter (fun r => ragKey r ∉ seen))) := by
  induction kw with
  | nil => intro seen res h; simp [mergeKeywordLoop, dedupByKey]
  | cons r rs ih =>
    intro seen res h
    rw [mergeKeywordLoop]
    by_cases hk : ragKey r ∈ seen
    · rw [if_pos hk]
      have hf : (r :: rs).filter (fun x => ragKey x ∉ seen) =
          rs.filter (fun x => ragKey x ∉ seen) := by
        simp [List.filter_cons, hk]
      rw [hf]
      exact ih seen res h
    · rw [if_neg hk]
      have hf : (r :: rs).filter (fun x => ragKey x ∉ seen) =
          r :: rs.filter (fun x => ragKey x ∉ seen) := by
        simp [List.filter_cons, hk]
      rw [hf, dedupByKey_cons]
      rw [ih (seen ++ [ragKey r]) (res ++ [r]) (by simp [h])]
      have hsplit : rs.filter (fun x => ragKey x ∉ seen ++ [ragKey r]) =
          (rs.filter (fun x => ragKey x ∉ seen)).filter
            (fun x => ragKey x ≠ ragKey r) := by
        rw [List.filter_filter]
        apply List.filter_congr
        intro x _
        simp only [List.mem_append, List.mem_singleton, not_or]
        rw [Bool.and_comm]
        simp
      rw [hsplit, dedupByKey_filter_key (rs.filter (fun x => ragKey x ∉ seen)) (ragKey r)]
      simp

theorem dedupByKey_keys_nodup (l : List SearchResultForContext) :
    ((dedupByKey l).map ragKey).Nodup := by
  induction l with
  | nil => simp [dedupByKey]
  | cons r rs ih =>
    rw [dedupByKey_cons]
    simp only [List.map_cons, List.nodup_cons]
    constructor
    · intro hmem
      obtain ⟨x, hx, hkey⟩ := List.mem_map.mp hmem
      have := List.of_mem_filter hx
      simp only [decide_eq_true_eq] at this
      exact this hkey
    · exact ((List.filter_sublist _).map ragKey).nodup ih

theorem dedupByKey_length_le (l : List SearchResultForContext) :
    (dedupByKey l).length ≤ l.length := by
  induction l with
  | nil => simp [dedupByKey]
  | cons r rs ih =>
    rw [dedupByKey_cons]
    simp only [List.length_cons]
    have := List.length_filter_le (fun x => ragKey x ≠ ragKey r) (dedupByKey rs)
    omega

theorem mergeFillLoop_length (st : List SearchResultForContext) :
    ∀ seen res limit, (mergeFillLoop st seen res limit).length ≤ max res.length limit := by
  induction st with
  | nil => intro seen res limit; rw [mergeFillLoop]; exact le_max_left _ _
  | cons r rs ih =>
    intro seen res limit
    rw [mergeFillLoop]
    by_cases h1 : limit ≤ res.length
    · rw [if_pos h1]; exact le_max_left _ _
    · rw [if_neg h1]
      by_cases h2 : ragKey r ∈ seen
      · rw [if_pos h2]; exact ih seen res limit
      · rw [if_neg h2]
        refine le_trans (ih (seen ++ [ragKey r]) (res ++ [r]) limit) ?_
        simp only [List.length_append, List.length_singleton]
        omega

theorem mergeFillLoop_spec (st : List SearchResultForContext) :
    ∀ (seen : List Str) (res : List SearchResultForContext) (limit : Nat),
    seen = res.map ragKey → seen.Nodup →
    ∃ extra, mergeFillLoop st seen res limit = res ++ extra ∧
      extra.Sublist st ∧
      (∀ r ∈ extra, ragKey r ∉ seen) ∧
      ((res ++ extra).map ragKey).Nodup := by
  induction st with
  | nil =>
    intro seen res limit h hnd
    exact ⟨[], by simp [mergeFillLoop], List.Sublist.refl _, by simp, by
      simp only [List.append_nil]; rw [← h]; exact hnd⟩
  | cons r rs ih =>
    intro seen res limit h hnd
    rw [mergeFillLoop]
    by_cases h1 : limit ≤ res.length
    · rw [if_pos h1]
      exact ⟨[], by simp, List.nil_sublist _, by simp, by
        simp only [List.append_nil]; rw [← h]; exact hnd⟩
    · rw [if_neg h1]
      by_cases h2 : ragKey r ∈ seen
      · rw [if_pos h2]
        obtain ⟨extra, heq, hsub, hkeys, hnodup⟩ := ih seen res limit h hnd
        exact ⟨extra, heq, hsub.cons r, hkeys, hnodup⟩
      · rw [if_neg h2]
        have hnd2 : (seen ++ [ragKey r]).Nodup := by
          simp [List.nodup_append, hnd, h2]
        obtain ⟨extra, heq, hsub, hkeys, hnodup⟩ :=
          ih (seen ++ [ragKey r]) (res ++ [r]) limit (by simp [h]) hnd2
        refine ⟨r :: extra, by simpa using heq, hsub.cons₂ r, ?_, by simpa using hnodup⟩
        intro x hx
        rcases List.mem_cons.mp hx with rfl | hx2
        · exact h2
        · intro hmem
          exact hkeys x hx2 (List.mem_append_left _ hmem)

/-- C5 (amended).  The merged RAG list is the keyword-pass list with
later items repeating an already-seen key (`brand|model|variant`) removed,
followed by structural-pass items whose key has not yet appeared, appended
only while the merged list is below the result limit; when the keyword-pass
list is no longer than the limit (the keyword query fetches at most `limit`
rows), the merged list never exceeds the limit; and no key occurs twice. -/
theorem mergeRagResults_spec (kw st : List SearchResultForContext) (limit : Nat) :
    (∃ extra, mergeRagResults kw st limit = dedupByKey kw ++ extra ∧
      extra.Sublist st ∧
      ∀ r ∈ extra, ragKey r ∉ (dedupByKey kw).map ragKey) ∧
    (kw.length ≤ limit → (mergeRagResults kw st limit).length ≤ limit) ∧
    ((mergeRagResults kw st limit).map ragKey).Nodup := by
  have hkl := mergeKeywordLoop_eq kw [] [] rfl
  have hfk : kw.filter (fun r => ragKey r ∉ ([] : List Str)) = kw := by simp
  rw [hfk] at hkl
  simp only [List.nil_append] at hkl
  have hmain : mergeRagResults kw st limit =
      mergeFillLoop st ((dedupByKey kw).map ragKey) (dedupByKey kw) limit := by
    unfold mergeRagResults
    rw [hkl]
  obtain ⟨extra, heq, hsub, hkeys, hnodup⟩ :=
    mergeFillLoop_spec st ((dedupByKey kw).map ragKey) (dedupByKey kw) limit rfl
      (dedupByKey_keys_nodup kw)
  refine ⟨⟨extra, by rw [hmain, heq], hsub, hkeys⟩, ?_, by rw [hmain, heq]; exact hnodup⟩
  intro hlim
  rw [hmain]
  refine le_trans (mergeFillLoop_length st _ _ limit) ?_
  have := dedupByKey_length_le kw
  omega

/-- A sample catalog item for the C5 counterexample and witness. -/
def sampleRagResult : SearchResultForContext where
  brand := "BMW".toList
  model := "3 Series".toList
  variant := "320i AT".toList
  description := none
  yearFrom := none
  yearTo := none
  powerText := none
  kppText := none
  bodyType := none
  complectations := none

/-- C5 counterexample.  A keyword-pass list containing the same
(brand, model, variant) item twice is de-duplicated by the first merge loop,
so the merged list does not start with the keyword-pass items in their
original order (the claimed prefix would need length 2). -/
theorem mergeRagResults_dup_counterexample :
    mergeRagResults [sampleRagResult, sampleRagResult] [] 2 = [sampleRagResult] ∧
    ¬ ([sampleRagResult, sampleRagResult] <+: [sampleRagResult]) := by
  constructor
  · decide
  · intro hpre
    have := hpre.length_le
    simp at this

/-- Witness for C5 (amended) at concrete lists: one duplicated keyword item
and an empty structural list under limit 2. -/
theorem mergeRagResults_spec_witness :
    (mergeRagResults [sampleRagResult, sampleRagResult] [] 2).length ≤ 2 :=
  (mergeRagResults_spec [sampleRagResult, sampleRagResult] [] 2).2.1 (by decide)

/-!
## Hidden-block preference extraction

`AIService.extractPreferences` (service lines 342-398): find the first
`[PREFERENCES]...[/PREFERENCES]` block lazily, `JSON.parse` its trimmed
content, and keep each recognized key only when its value is truthy and has
the expected type; any throw (malformed JSON, property access on `null`) is
caught and yields the empty preference set.  `JSON.parse` is an external
builtin; it is modelled as an abstract total function returning `none` when
parsing throws.
-/

/-- A parsed JSON value (numbers as integers; fractional values do not
affect the claims about this function). -/
inductive JsonVal where
  | jnull
  | jbool (b : Bool)
  | jnum (n : Int)
  | jstr (s : Str)
  | jarr (xs : List JsonVal)
  | jobj (fields : List (Str × JsonVal))

/-- The test `v === null` (property access on `null` throws). -/
def isJNull : JsonVal → Bool
  | .jnull => true
  | _ => false

/-- JS property read on a parsed value: an object yields its last binding
for the key (duplicate JSON keys: last one wins), everything except `null`
yields `undefined`; reading a property of `null` throws, which is handled
by the caller. -/
def getProp (v : JsonVal) (k : Str) : Option JsonVal :=
  match v with
  | .jobj fields => (fields.reverse.find? (fun f => f.1 = k)).map Prod.snd
  | _ => none

def openDelim : Str := "[PREFERENCES]".toList

def closeDelim : Str := "[/PREFERENCES]".toList

/-- The regex `/\[PREFERENCES\]([\s\S]*?)\[\/PREFERENCES\]/`: the content
between the first open delimiter and the earliest close delimiter after it
(if the first open delimiter has no close after it, no later one has either,
so there is no match). -/
def findPreferencesBlock (text : Str) : Option Str :=
  match splitFirst text openDelim with
  | none => none
  | some p =>
    match splitFirst p.2 closeDelim with
    | none => none
    | some q => some q.1

/-- JS `String.prototype.trim` (both ends). -/
def trimStr (s : Str) : Str :=
  (s.dropWhile isWsChar).reverse.dropWhile isWsChar |>.reverse

/-- The per-key cleaning loop: `preferences.k && typeof preferences.k ===
'string'` keeps a string key only when present and non-empty, and
`preferences.k && typeof preferences.k === 'number'` keeps a numeric key
only when present and non-zero. -/
def cleanStrProp (v : JsonVal) (k : Str) : Option Str :=
  match getProp v k with
  | some (.jstr s) => if s = [] then none else some s
  | _ => none

def cleanNumProp (v : JsonVal) (k : Str) : Option Int :=
  match getProp v k with
  | some (.jnum n) => if n = 0 then none else some n
  | _ => none

/-- The validated record built from a parsed block value; property access on
`null` throws `TypeError`, caught by the surrounding `try` into the empty
record. -/
def cleanPreferences (v : JsonVal) : UserPreferences :=
  if isJNull v then emptyPreferences
  else
    { marka := cleanStrProp v ("marka".toList)
      model := cleanStrProp v ("model".toList)
      country := cleanStrProp v ("country".toList)
      color := cleanStrProp v ("color".toList)
      power := cleanStrProp v ("power".toList)
      kpp := cleanStrProp v ("kpp".toList)
      yearFrom := cleanNumProp v ("yearFrom".toList)
      yearTo := cleanNumProp v ("yearTo".toList)
      bodyType := cleanStrProp v ("bodyType".toList)
      budget := cleanNumProp v ("budget".toList) }

/-- The method `extractPreferences`, with `JSON.parse` abstracted as `parseJson`. -/
def extractPreferences (parseJson : Str → Option JsonVal) (responseText : Str) :
    UserPreferences :=
  match findPreferencesBlock responseText with
  | none => emptyPreferences
  | some content =>
    match parseJson (trimStr content) with
    | none => emptyPreferences
    | some v => cleanPreferences v

/-- The JSON object key that carries each preference slot. -/
def slotKey : Slot → Str
  | .marka => "marka".toList
  | .model => "model".toList
  | .country => "country".toList
  | .color => "color".toList
  | .power => "power".toList
  | .kpp => "kpp".toList
  | .yearFrom => "yearFrom".toList
  | .yearTo => "yearTo".toList
  | .bodyType => "bodyType".toList
  | .budget => "budget".toList

/-- The JSON value a kept slot value corresponds to. -/
def jsonOfSlotVal : SlotVal → JsonVal
  | .s s => .jstr s
  | .n n => .jnum n


theorem cleanStrProp_some (v : JsonVal) (k : Str) (s : Str)
    (h : cleanStrProp v k = some s) : getProp v k = some (.jstr s) := by
  unfold cleanStrProp at h
  cases hp : getProp v k with
  | none => rw [hp] at h; exact absurd (show (none : Option Str) = some s from h) (by simp)
  | some jv =>
    rw [hp] at h
    cases jv with
    | jstr s2 =>
      have h2 : (if s2 = [] then (none : Option Str) else some s2) = some s := h
      by_cases hs2 : s2 = []
      · rw [if_pos hs2] at h2; simp at h2
      · rw [if_neg hs2] at h2
        injection h2 with h2
        rw [h2]
    | jnull => exact absurd (show (none : Option Str) = some s from h) (by simp)
    | jbool b => exact absurd (show (none : Option Str) = some s from h) (by simp)
    | jnum n => exact absurd (show (none : Option Str) = some s from h) (by simp)
    | jarr xs => exact absurd (show (none : Option Str) = some s from h) (by simp)
    | jobj fs => exact absurd (show (none : Option Str) = some s from h) (by simp)

theorem cleanNumProp_some (v : JsonVal) (k : Str) (n : Int)
    (h : cleanNumProp v k = some n) : getProp v k = some (.jnum n) := by
  unfold cleanNumProp at h
  cases hp : getProp v k with
  | none => rw [hp] at h; exact absurd (show (none : Option Int) = some n from h) (by simp)
  | some jv =>
    rw [hp] at h
    cases jv with
    | jnum n2 =>
      have h2 : (if n2 = 0 then (none : Option Int) else some n2) = some n := h
      by_cases hn2 : n2 = 0
      · rw [if_pos hn2] at h2; simp at h2
      · rw [if_neg hn2] at h2
        injection h2 with h2
        rw [h2]
    | jnull => exact absurd (show (none : Option Int) = some n from h) (by simp)
    | jbool b => exact absurd (show (none : Option Int) = some n from h) (by simp)
    | jstr s => exact absurd (show (none : Option Int) = some n from h) (by simp)
    | jarr xs => exact absurd (show (none : Option Int) = some n from h) (by simp)
    | jobj fs => exact absurd (show (none : Option Int) = some n from h) (by simp)

theorem cleanStrProp_congr (v w : JsonVal) (k : Str)
    (h : getProp v k = getProp w k) : cleanStrProp v k = cleanStrProp w k := by
  unfold cleanStrProp
  rw [h]

theorem cleanNumProp_congr (v w : JsonVal) (k : Str)
    (h : getProp v k = getProp w k) : cleanNumProp v k = cleanNumProp w k := by
  unfold cleanNumProp
  rw [h]

theorem getProp_jnull (k : Str) : getProp .jnull k = none := rfl

theorem isJNull_eq_true_iff (v : JsonVal) : isJNull v = true ↔ v = .jnull := by
  cases v <;> simp [isJNull]

theorem cleanPreferences_of_props_none (w : JsonVal)
    (hprops : ∀ k : Slot, getProp w (slotKey k) = none) :
    cleanPreferences w = emptyPreferences := by
  by_cases hw : isJNull w = true
  · rw [cleanPreferences, if_pos hw]
  · rw [cleanPreferences, if_neg hw]
    have h1 := hprops Slot.marka
    have h2 := hprops Slot.model
    have h3 := hprops Slot.country
    have h4 := hprops Slot.color
    have h5 := hprops Slot.power
    have h6 := hprops Slot.kpp
    have h7 := hprops Slot.yearFrom
    have h8 := hprops Slot.yearTo
    have h9 := hprops Slot.bodyType
    have h10 := hprops Slot.budget
    simp only [slotKey] at h1 h2 h3 h4 h5 h6 h7 h8 h9 h10
    have e1 : cleanStrProp w ("marka".toList) = none := by unfold cleanStrProp; rw [h1]
    have e2 : cleanStrProp w ("model".toList) = none := by unfold cleanStrProp; rw [h2]
    have e3 : cleanStrProp w ("country".toList) = none := by unfold cleanStrProp; rw [h3]
    have e4 : cleanStrProp w ("color".toList) = none := by unfold cleanStrProp; rw [h4]
    have e5 : cleanStrProp w ("power".toList) = none := by unfold cleanStrProp; rw [h5]
    have e6 : cleanStrProp w ("kpp".toList) = none := by unfold cleanStrProp; rw [h6]
    have e7 : cleanNumProp w ("yearFrom".toList) = none := by unfold cleanNumProp; rw [h7]
    have e8 : cleanNumProp w ("yearTo".toList) = none := by unfold cleanNumProp; rw [h8]
    have e9 : cleanStrProp w ("bodyType".toList) = none := by unfold cleanStrProp; rw [h9]
    have e10 : cleanNumProp w ("budget".toList) = none := by unfold cleanNumProp; rw [h10]
    rw [e1, e2, e3, e4, e5, e6, e7, e8, e9, e10]
    rfl

theorem cleanPreferences_congr (v w : JsonVal)
    (h : ∀ k : Slot, getProp v (slotKey k) = getProp w (slotKey k)) :
    cleanPreferences v = cleanPreferences w := by
  by_cases hv : isJNull v = true <;> by_cases hw : isJNull w = true
  · obtain rfl := (isJNull_eq_true_iff v).mp hv
    obtain rfl := (isJNull_eq_true_iff w).mp hw
    rfl
  · obtain rfl := (isJNull_eq_true_iff v).mp hv
    have hnone : ∀ k : Slot, getProp w (slotKey k) = none :=
      fun k => (h k).symm.trans (getProp_jnull (slotKey k))
    rw [cleanPreferences_of_props_none w hnone]
    simp [cleanPreferences, isJNull]
  · obtain rfl := (isJNull_eq_true_iff w).mp hw
    have hnone : ∀ k : Slot, getProp v (slotKey k) = none :=
      fun k => (h k).trans (getProp_jnull (slotKey k))
    rw [cleanPreferences_of_props_none v hnone]
    simp [cleanPreferences, isJNull]
  · rw [cleanPreferences, if_neg hv, cleanPreferences, if_neg hw]
    have hk := fun k => h k
    simp only [UserPreferences.mk.injEq]
    refine ⟨?_, ?_, ?_, ?_, ?_, ?_, ?_, ?_, ?_, ?_⟩
    · exact cleanStrProp_congr v w _ (by simpa [slotKey] using h Slot.marka)
    · exact cleanStrProp_congr v w _ (by simpa [slotKey] using h Slot.model)
    · exact cleanStrProp_congr v w _ (by simpa [slotKey] using h Slot.country)
    · exact cleanStrProp_congr v w _ (by simpa [slotKey] using h Slot.color)
    · exact cleanStrProp_congr v w _ (by simpa [slotKey] using h Slot.power)
    · exact cleanStrProp_congr v w _ (by simpa [slotKey] using h Slot.kpp)
    · exact cleanNumProp_congr v w _ (by simpa [slotKey] using h Slot.yearFrom)
    · exact cleanNumProp_congr v w _ (by simpa [slotKey] using h Slot.yearTo)
    · exact cleanStrProp_congr v w _ (by simpa [slotKey] using h Slot.bodyType)
    · exact cleanNumProp_congr v w _ (by simpa [slotKey] using h Slot.budget)

/-- C8.  Hidden-block extraction never fails: a missing block or a content
that does not parse yields the empty preference set; every slot kept in the
result is exactly the block's value at that recognized key with the expected
type (string slots as JSON strings, numeric slots as JSON numbers); and the
result depends only on the recognized keys, so unknown keys are ignored. -/
theorem extractPreferences_spec (parseJson : Str → Option JsonVal) (text : Str) :
    (findPreferencesBlock text = none →
      extractPreferences parseJson text = emptyPreferences) ∧
    (∀ content, findPreferencesBlock text = some content →
      parseJson (trimStr content) = none →
      extractPreferences parseJson text = emptyPreferences) ∧
    (∀ content v k val, findPreferencesBlock text = some content →
      parseJson (trimStr content) = some v →
      getSlot (extractPreferences parseJson text) k = some val →
      getProp v (slotKey k) = some (jsonOfSlotVal val)) ∧
    (∀ v w, (∀ k : Slot, getProp v (slotKey k) = getProp w (slotKey k)) →
      cleanPreferences v = cleanPreferences w) := by
  refine ⟨?_, ?_, ?_, cleanPreferences_congr⟩
  · intro h
    unfold extractPreferences
    rw [h]
  · intro content hb hp
    unfold extractPreferences
    rw [hb]
    show (match parseJson (trimStr content) with
      | none => emptyPreferences
      | some v => cleanPreferences v) = emptyPreferences
    rw [hp]
  · intro content v k val hb hp hres
    have hex : extractPreferences parseJson text = cleanPreferences v := by
      unfold extractPreferences
      rw [hb]
      show (match parseJson (trimStr content) with
        | none => emptyPreferences
        | some v => cleanPreferences v) = cleanPreferences v
      rw [hp]
    rw [hex] at hres
    by_cases hv : isJNull v = true
    · rw [cleanPreferences, if_pos hv] at hres
      cases k <;> simp [getSlot, emptyPreferences] at hres
    · rw [cleanPreferences, if_neg hv] at hres
      cases k <;> simp only [getSlot, slotKey] at hres ⊢ <;>
        first
        | (obtain ⟨s, hs, rfl⟩ := Option.map_eq_some'.mp hres
           rw [cleanStrProp_some v _ s hs]
           rfl)
        | (obtain ⟨n, hn, rfl⟩ := Option.map_eq_some'.mp hres
           rw [cleanNumProp_some v _ n hn]
           rfl)

/-- Witness for C8 at a concrete response and parser: a response with a
block whose parsed object carries `marka` and an unknown key keeps exactly
`marka`; and a response with no block yields the empty set. -/
theorem extractPreferences_spec_witness :
    extractPreferences (fun _ => none) ("Just a normal response".toList) =
      emptyPreferences ∧
    getProp (.jobj [("marka".toList, .jstr ("BMW".toList)),
        ("unknownField".toList, .jstr ("value".toList))]) (slotKey Slot.marka) =
      some (jsonOfSlotVal (.s ("BMW".toList))) := by
  constructor
  · exact (extractPreferences_spec (fun _ => none)
      ("Just a normal response".toList)).1 (by decide)
  · exact (extractPreferences_spec
        (fun _ => some (.jobj [("marka".toList, .jstr ("BMW".toList)),
          ("unknownField".toList, .jstr ("value".toList))]))
        ("[PREFERENCES]x[/PREFERENCES]".toList)).2.2.1
      ("x".toList) _ Slot.marka (.s ("BMW".toList)) (by decide) rfl (by decide)

/-!
## Streaming response filter

`AIService.processMessageStream`, service lines 182-294.  The SSE transport
is abstracted away: the filter is modelled as a fold of `processContent` over
the list of content fragments (`chunk.choices[0].delta.content`), one
fragment per `data:` line, followed by the end-of-stream step `finalizeStream`.
Each fragment is appended to `fullResponse`, `streamBuffer` and
`outputBuffer`; a watched rejection phrase in `outputBuffer` sets the
rejection flag and breaks before any yield (and keeps re-breaking on later
fragments, because the phrase stays in the append-only buffer); otherwise the
hidden-block close logic or the 500-character hold-back logic may yield.
`split('[PREFERENCES]')[0]` is the text before the first open delimiter, and
`split('[/PREFERENCES]')[1] || ''` is modelled as the text after the first
close delimiter, which coincides with the JS value whenever the close
delimiter occurs at most once in the buffer (the single-block scope of the
claims). -/

structure FilterState where
  fullResponse : Str
  streamBuffer : Str
  outputBuffer : Str
  insidePreferencesBlock : Bool
  rejectionDetected : Bool
  yields : List Str
  deriving DecidableEq, Repr

def initialFilterState : FilterState :=
  { fullResponse := [], streamBuffer := [], outputBuffer := [],
    insidePreferencesBlock := false, rejectionDetected := false, yields := [] }

def rejectionPhrases : List Str :=
  ["Извините, не могу ответить".toList,
   "Sorry, I cannot".toList,
   "Попробуйте переформулировать".toList]

def containsRejection (s : Str) : Bool :=
  rejectionPhrases.any (fun p => containsStr s p)

def rejectionMessage : Str :=
  ("Извините, я не могу ответить на этот вопрос. " ++
   "Попробуйте переформулировать или задать вопрос о гражданских автомобилях.").toList

def REJECTION_BUFFER_SIZE : Nat := 500

/-- One content fragment (lines 216-271). -/
def processContent (st : FilterState) (content : Str) : FilterState :=
  let fullResponse := st.fullResponse ++ content
  let streamBuffer := st.streamBuffer ++ content
  let outputBuffer := st.outputBuffer ++ content
  if containsRejection outputBuffer then
    -- rejection detected: set the flag and break before any yield
    { fullResponse := fullResponse, streamBuffer := streamBuffer,
      outputBuffer := outputBuffer,
      insidePreferencesBlock := st.insidePreferencesBlock,
      rejectionDetected := true, yields := st.yields }
  else
    let insidePreferencesBlock :=
      st.insidePreferencesBlock || containsStr streamBuffer openDelim
    if insidePreferencesBlock && containsStr streamBuffer closeDelim then
      let beforeBlock :=
        match splitFirst streamBuffer openDelim with
        | some p => p.1
        | none => streamBuffer
      let afterBlock :=
        match splitFirst streamBuffer closeDelim with
        | some p => p.2
        | none => []
      { fullResponse := fullResponse, streamBuffer := [],
        outputBuffer :=
          if beforeBlock ≠ [] ∨ afterBlock ≠ [] then [] else outputBuffer,
        insidePreferencesBlock := false,
        rejectionDetected := st.rejectionDetected,
        yields := st.yields ++
          (if beforeBlock ≠ [] then [beforeBlock] else []) ++
          (if afterBlock ≠ [] then [afterBlock] else []) }
    else if !insidePreferencesBlock then
      let safeLength := outputBuffer.length - REJECTION_BUFFER_SIZE
      if 0 < safeLength then
        { fullResponse := fullResponse,
          streamBuffer := streamBuffer.drop safeLength,
          outputBuffer := outputBuffer.drop safeLength,
          insidePreferencesBlock := insidePreferencesBlock,
          rejectionDetected := st.rejectionDetected,
          yields := st.yields ++ [outputBuffer.take safeLength] }
      else
        { fullResponse := fullResponse, streamBuffer := streamBuffer,
          outputBuffer := outputBuffer,
          insidePreferencesBlock := insidePreferencesBlock,
          rejectionDetected := st.rejectionDetected, yields := st.yields }
    else
      { fullResponse := fullResponse, streamBuffer := streamBuffer,
        outputBuffer := outputBuffer,
        insidePreferencesBlock := insidePreferencesBlock,
        rejectionDetected := st.rejectionDetected, yields := st.yields }

def processFrags (st : FilterState) (frags : List Str) : FilterState :=
  frags.foldl processContent st

/-- The global lazy replace
`replace(/\[PREFERENCES\][\s\S]*?\[\/PREFERENCES\]/g, '')`: repeatedly drop
the span from the first open delimiter to the earliest close delimiter after
it.  The fuel only justifies termination (each step removes at least the two
delimiters). -/
def removeBlocksAux : Nat → Str → Str
  | 0, s => s
  | fuel + 1, s =>
    match splitFirst s openDelim with
    | none => s
    | some p =>
      match splitFirst p.2 closeDelim with
      | none => s
      | some q => p.1 ++ removeBlocksAux fuel q.2

def removeBlocks (s : Str) : Str := removeBlocksAux s.length s

/-- End of stream (lines 279-294): a detected rejection yields the fixed
fallback message and overrides the full response; otherwise the remaining
stream buffer is flushed after re-stripping fully formed hidden blocks.
Returns (yields, fullResponse). -/
def finalizeStream (st : FilterState) : List Str × Str :=
  if st.rejectionDetected then
    (st.yields ++ [rejectionMessage], rejectionMessage)
  else if st.streamBuffer ≠ [] ∧ st.insidePreferencesBlock = false then
    let cleaned := removeBlocks st.streamBuffer
    (st.yields ++ (if cleaned ≠ [] then [cleaned] else []), st.fullResponse)
  else
    (st.yields, st.fullResponse)

/-- Run the filter over a whole fragment list. -/
def runStreamFilter (frags : List Str) : List Str × Str :=
  finalizeStream (processFrags initialFilterState frags)


/-- The failing stream for C1: the model response is a bare hidden block
followed by 600 characters of prose, delivered as two fragments. -/
def c1BlockFragment : Str :=
  "[PREFERENCES]\x7b\"marka\":\"BMW\"\x7d[/PREFERENCES]".toList

def c1ProseFragment : Str := List.replicate 600 'x'

/-- C1 (evaluation of the code at the failing input).  When the hidden block
closes with no accumulated prose on either side, the close branch yields
nothing and so never resets the output buffer (the reset sits inside
`if (beforeBlock)` / `if (afterBlock)`); once enough prose follows, the
hold-back branch flushes the stale output buffer and the entire delimited
block reaches the client, while part of the prose is dropped.  The claim
requires the forwarded stream to equal `"" ++ prose` with no fragment
containing any part of the block. -/
theorem streamFilter_block_leak :
    (runStreamFilter [c1BlockFragment, c1ProseFragment]).1 =
      [c1BlockFragment ++ List.replicate 100 'x', List.replicate 458 'x'] ∧
    containsStr ((runStreamFilter [c1BlockFragment, c1ProseFragment]).1.headD [])
      openDelim = true ∧
    List.foldr (fun a b => a ++ b) []
        (runStreamFilter [c1BlockFragment, c1ProseFragment]).1 ≠
      ([] : Str) ++ c1ProseFragment := by
  refine ⟨by decide, by decide, by decide⟩

theorem containsRejection_append (s t : Str) (h : containsRejection s = true) :
    containsRejection (s ++ t) = true := by
  obtain ⟨p, hp, hc⟩ := List.any_eq_true.mp h
  exact List.any_eq_true.mpr ⟨p, hp, containsStr_append_right s t p hc⟩

theorem processContent_of_rejection (st : FilterState) (c : Str)
    (hdet : containsRejection (st.outputBuffer ++ c) = true) :
    processContent st c =
      { fullResponse := st.fullResponse ++ c, streamBuffer := st.streamBuffer ++ c,
        outputBuffer := st.outputBuffer ++ c,
        insidePreferencesBlock := st.insidePreferencesBlock,
        rejectionDetected := true, yields := st.yields } := by
  unfold processContent
  simp only [hdet, if_true]

theorem processFrags_rejected (frags : List Str) :
    ∀ st : FilterState, st.rejectionDetected = true →
    containsRejection st.outputBuffer = true →
    (processFrags st frags).yields = st.yields ∧
    (processFrags st frags).rejectionDetected = true := by
  induction frags with
  | nil => exact fun st h1 _ => ⟨rfl, h1⟩
  | cons c cs ih =>
    intro st h1 h2
    have hdet := containsRejection_append st.outputBuffer c h2
    have hstep := processContent_of_rejection st c hdet
    show (processFrags (processContent st c) cs).yields = st.yields ∧
      (processFrags (processContent st c) cs).rejectionDetected = true
    rw [hstep]
    exact ih _ rfl hdet

/-- C2 (amended).  Once a watched rejection phrase appears in the held-back
output buffer, the filter is terminally rejected: the detecting step and all
later steps yield no further upstream prose, and at end of stream exactly
the fixed fallback message is yielded and substituted as the full response
value.  (Prose flushed before detection — anything beyond the 500-character
held-back tail — has already reached the client and is not retracted.) -/
theorem streamFilter_rejection_terminal (st : FilterState) (c : Str)
    (frags : List Str)
    (hdet : containsRejection (st.outputBuffer ++ c) = true) :
    (processContent st c).yields = st.yields ∧
    (processContent st c).rejectionDetected = true ∧
    (processFrags (processContent st c) frags).yields = st.yields ∧
    (processFrags (processContent st c) frags).rejectionDetected = true ∧
    finalizeStream (processFrags (processContent st c) frags) =
      (st.yields ++ [rejectionMessage], rejectionMessage) := by
  have hstep := processContent_of_rejection st c hdet
  have hrest := processFrags_rejected frags (processContent st c)
    (by rw [hstep]) (by rw [hstep]; exact hdet)
  have hy : (processContent st c).yields = st.yields := by rw [hstep]
  refine ⟨hy, by rw [hstep], hy ▸ hrest.1, hrest.2, ?_⟩
  unfold finalizeStream
  rw [if_pos hrest.2, hrest.1, hy]

/-- Witness for C2 (amended): a stream whose only fragment is a rejection
phrase is terminally rejected, and the filter emits exactly the fallback. -/
theorem streamFilter_rejection_terminal_witness :
    finalizeStream (processFrags
        (processContent initialFilterState ("Извините, не могу ответить".toList)) []) =
      ([rejectionMessage], rejectionMessage) := by
  have h := streamFilter_rejection_terminal initialFilterState
    ("Извините, не могу ответить".toList) [] (by decide)
  simpa using h.2.2.2.2

/-- C2 counterexample.  A stream of 600 prose characters followed by a
rejection phrase: 100 characters are flushed to the client before the phrase
arrives (only a 500-character tail is held back), so the stream seen by the
client is not the fallback message alone, although the full response value
is overridden by it. -/
theorem streamFilter_rejection_counterexample :
    (processFrags initialFilterState
        [List.replicate 600 'x', ("Извините, не могу ответить".toList)]).rejectionDetected
      = true ∧
    (runStreamFilter [List.replicate 600 'x', ("Извините, не могу ответить".toList)]).1 =
      [List.replicate 100 'x', rejectionMessage] ∧
    (runStreamFilter [List.replicate 600 'x', ("Извините, не могу ответить".toList)]).1 ≠
      [rejectionMessage] ∧
    (runStreamFilter [List.replicate 600 'x', ("Извините, не могу ответить".toList)]).2 =
      rejectionMessage := by
  refine ⟨by decide, by decide, by decide, by decide⟩
